import Mathlib

/-!
Verification development for the GoParser chapter-extraction core.

The Go sources are shallowly embedded: HTML documents become a `HNode` tree,
goquery selections become node lists, strings become `String`/`List Char`,
`int` becomes `Int`, and fallible functions return `Except`/`Option`.
CSS selectors and the user-configurable scene-break regular expressions are
abstracted as decidable predicates; the fixed regular expressions appearing
literally in the source (`chCodeRe`, the `<br>`-run pattern, the scene-break
marker pattern, `<[^>]+>`, `\s+`) are implemented directly as scanners with
the same leftmost-match semantics.
-/

namespace GoParser

/-- Whitespace per Go `unicode.IsSpace` (the set relevant to `strings.TrimSpace`
and `strings.Fields`). -/
def isGoSpace (c : Char) : Bool :=
  c = ' ' || c = '\t' || c = '\n' || c.val = 11 || c.val = 12 || c = '\r' ||
  c.val = 0x85 || c.val = 0xA0 || c.val = 0x1680 ||
  (0x2000 ≤ c.val && c.val ≤ 0x200A) ||
  c.val = 0x2028 || c.val = 0x2029 || c.val = 0x202F || c.val = 0x205F || c.val = 0x3000

/-- Whitespace matched by RE2 `\s`, namely `[\t\n\f\r ]`. -/
def isRe2Space (c : Char) : Bool :=
  c = '\t' || c = '\n' || c.val = 12 || c = '\r' || c = ' '

/-- Word characters for RE2 `\b`, namely `[0-9A-Za-z_]`. -/
def isWordChar (c : Char) : Bool :=
  c.isAlpha || c.isDigit || c = '_'

/-- ASCII lowercasing of a character list (`strings.ToLower` on the ASCII
strings this code compares: tag names and SceneBreakStyle values). -/
def lowerChars (cs : List Char) : List Char :=
  cs.map Char.toLower

/-- ASCII lowercasing of a string. -/
def lowerStr (s : String) : String :=
  String.mk (lowerChars s.data)

/-- Case-insensitive equality of two strings (`strings.EqualFold` on ASCII). -/
def eqFold (a b : String) : Bool :=
  lowerStr a = lowerStr b

/-- Does `pat` occur at the head of `cs`? -/
def headMatches : List Char → List Char → Bool
  | [], _ => true
  | _ :: _, [] => false
  | p :: ps, c :: cs => p = c && headMatches ps cs

/-- Does `pat` occur anywhere inside `cs` (`strings.Contains`)? -/
def isSubstr (pat : List Char) : List Char → Bool
  | [] => pat.isEmpty
  | c :: cs => headMatches pat (c :: cs) || isSubstr pat cs

/-- Does the string contain "next" case-insensitively?  This is exactly what
the anchored-nowhere RE2 pattern `(?i)Next` tests via `MatchString`. -/
def containsNextFold (s : String) : Bool :=
  isSubstr ("next").data (lowerChars s.data)

/-- Right-trim of Go whitespace. -/
def trimRightChars : List Char → List Char
  | [] => []
  | c :: cs =>
    let t := trimRightChars cs
    if t.isEmpty && isGoSpace c then [] else c :: t

/-- Character-level `strings.TrimSpace`. -/
def trimChars (cs : List Char) : List Char :=
  trimRightChars (cs.dropWhile isGoSpace)

/-- Go `strings.TrimSpace`. -/
def goTrimSpace (s : String) : String :=
  String.mk (trimChars s.data)

/-- Worker for `fieldsJoin`: `started` records whether a word was already
emitted, `pend` whether whitespace was seen since the last word character. -/
def fieldsJoinGo : Bool → Bool → List Char → List Char
  | _, _, [] => []
  | started, pend, c :: cs =>
    if isGoSpace c then fieldsJoinGo started true cs
    else if started && pend then ' ' :: c :: fieldsJoinGo true false cs
    else c :: fieldsJoinGo true false cs

/-- Go `strings.Join(strings.Fields(s), " ")`: words of `s` joined by single
spaces. -/
def fieldsJoin (s : String) : String :=
  String.mk (fieldsJoinGo false false s.data)

/-- Replacement of a single character under Go `html.EscapeString`. -/
def escChar (c : Char) : List Char :=
  if c = '&' then ("&amp;").data
  else if c = '\'' then ("&#39;").data
  else if c = '<' then ("&lt;").data
  else if c = '>' then ("&gt;").data
  else if c = '"' then ("&#34;").data
  else [c]

/-- Character-level Go `html.EscapeString`. -/
def escapeChars (cs : List Char) : List Char :=
  (cs.map escChar).flatten

/-- Go `html.EscapeString`. -/
def escapeString (s : String) : String :=
  String.mk (escapeChars s.data)

/-- Byte length of a character list in UTF-8; Go `len(s)` counts bytes. -/
def utf8Len (cs : List Char) : Nat :=
  (cs.map Char.utf8Size).sum

/-- Shallow embedding of `golang.org/x/net/html` nodes: text nodes, element
nodes with attributes and children, and a constructor covering the remaining
node kinds (comments, doctypes), which the walked code treats as childless
non-element non-text nodes. -/
inductive HNode where
  | text (s : String)
  | comment (s : String)
  | elem (name : String) (attrs : List (String × String)) (children : List HNode)

/-- Children of a node; only element nodes have any. -/
def HNode.children : HNode → List HNode
  | .elem _ _ cs => cs
  | _ => []

mutual
/-- Strict descendants of a node in document pre-order, exactly the order in
which `iterateDescendants`/`walk` visit them (child first, then its subtree). -/
def descOf : HNode → List HNode
  | .text _ => []
  | .comment _ => []
  | .elem _ _ cs => descListOf cs
/-- Pre-order traversal of a forest: each root followed by its subtree. -/
def descListOf : List HNode → List HNode
  | [] => []
  | n :: ns => n :: descOf n ++ descListOf ns
end

mutual
/-- Concatenated text content of a node (`goquery` `Text()` semantics:
data of every descendant text node, in document order). -/
def rawText : HNode → String
  | .text s => s
  | .comment _ => ""
  | .elem _ _ cs => rawTextList cs
/-- Text content of a forest. -/
def rawTextList : List HNode → String
  | [] => ""
  | n :: ns => rawText n ++ rawTextList ns
end

/-- First attribute value for a key (`goquery` `Attr`); the html parser
lower-cases keys, and lookup compares keys verbatim. -/
def attrOf (attrs : List (String × String)) (key : String) : Option String :=
  match attrs with
  | [] => none
  | (k, v) :: rest => if k = key then some v else attrOf rest key

/-- First strict descendant of `doc` satisfying `p`, in document order:
`doc.Find(sel).First()` for the predicate compiled from `sel`. -/
def findFirst (doc : HNode) (p : HNode → Bool) : Option HNode :=
  (descOf doc).find? p

/-- All strict descendants of `doc` satisfying `p`, in document order:
`doc.Find(sel)` for the predicate compiled from `sel`. -/
def findAll (doc : HNode) (p : HNode → Bool) : List HNode :=
  (descOf doc).filter p

/-- Is this an element with the given (already lower-case) tag name? -/
def isTag (name : String) : HNode → Bool
  | .elem n _ _ => n = name
  | _ => false

/-- Does the element carry an attribute `key` whose value contains `sub`
(CSS `[key*="sub"]`, case-sensitive on the value)? -/
def hasAttrContaining (key sub : String) : HNode → Bool
  | .elem _ attrs _ =>
    match attrOf attrs key with
    | some v => isSubstr sub.data v.data
    | none => false
  | _ => false

/-- Does the element carry an attribute `key` with exact value `v`? -/
def hasAttrEq (key v : String) : HNode → Bool
  | .elem _ attrs _ =>
    match attrOf attrs key with
    | some w => w = v
    | none => false
  | _ => false

/-! ### A tag scanner for stating the whitelist property

`tagsIn s` lists the names of all tags occurring in an HTML string: the scanner
enters a tag at `<`, accumulates the tag body up to the next `>`, and extracts
the name (dropping a leading `/` for closing tags).  This is the analysis
vocabulary in which the whitelist-closure claim is expressed; it is not part of
the embedded program. -/

/-- Scanner state: tag bodies seen so far, and the partially read body when
inside a tag. -/
structure ScanSt where
  bodies : List (List Char)
  cur : Option (List Char)

/-- One scanner transition. -/
def scanStep (st : ScanSt) (c : Char) : ScanSt :=
  match st.cur with
  | none => if c = '<' then ⟨st.bodies, some []⟩ else st
  | some b => if c = '>' then ⟨st.bodies ++ [b], none⟩ else ⟨st.bodies, some (b ++ [c])⟩

/-- Run the scanner over a character list. -/
def scanBodies (cs : List Char) : ScanSt :=
  cs.foldl scanStep ⟨[], none⟩

/-- Tag name within a tag body: strip a leading `/`, take the alphanumeric
name characters. -/
def tagNameOf (body : List Char) : String :=
  let b := match body with
    | '/' :: t => t
    | _ => body
  String.mk (b.takeWhile Char.isAlphanum)

/-- Names of all tags occurring in an HTML string. -/
def tagsIn (s : String) : List String :=
  (scanBodies s.data).bodies.map tagNameOf

/-- Tag names the parser is allowed to emit: the whitelisted inline and block
tags plus the scene-break (`hr`) and spacer (`p`) marker elements. -/
def whitelist : List String :=
  ["p", "blockquote", "b", "i", "u", "a", "br", "hr"]

/-- A well-formed tag body: contains no stray `<` and names a whitelisted tag. -/
def goodBody (body : List Char) : Bool :=
  !body.contains '<' && whitelist.contains (tagNameOf body)

/-- Whitelisted well-formedness of an HTML string: the scanner ends outside a
tag and every tag body is closed, `<`-free and whitelisted. -/
def wfStr (cs : List Char) : Bool :=
  (scanBodies cs).cur.isNone && (scanBodies cs).bodies.all goodBody

/-! ### Data model (`internal/model`) -/

/-- One extracted chapter (`model.Chapter`). -/
structure Chapter where
  Title : String
  Code : String
  URL : String
  HTML : String
deriving DecidableEq

/-- Parser configuration (`model.ParserConfig`).  CSS selector strings and the
configurable scene-break regular expressions are abstracted as decidable
predicates; `PoliteDelaySec` only triggers a `time.Sleep` and has no
observable effect on the returned values, so it is omitted. -/
structure ParserConfig where
  SelectorCandidates : List (HNode → Bool)
  NextTexts : List String
  MinTextLen : Int
  SceneBreakPatterns : List (String → Bool)
  SceneBreakStyle : String
  ConsecutiveBRThreshold : Int

/-! ### Inline reconstruction (`combiner.go` `inlineHTML`, `nodeText`,
scene-break helpers) -/

/-- First attribute value whose key equals "href" case-insensitively, else
empty — the attribute scan inside `inlineHTML`'s `a` case. -/
def findHref : List (String × String) → String
  | [] => ""
  | (k, v) :: rest => if eqFold k ("href") then v else findHref rest

mutual
/-- Characters written by `inlineHTML`'s recursion for one node: text is
HTML-escaped, the whitelisted wrappers are re-emitted in canonical form,
anchors keep an escaped `href`, `br` becomes `<br/>`, and any other element
is unwrapped (children kept, wrapper dropped). -/
def inlineChars : HNode → List Char
  | .text s => escapeChars s.data
  | .comment _ => []
  | .elem name attrs cs =>
    let n := lowerStr name
    if n = "em" || n = "i" then ("<i>").data ++ inlineList cs ++ ("</i>").data
    else if n = "strong" || n = "b" then ("<b>").data ++ inlineList cs ++ ("</b>").data
    else if n = "u" then ("<u>").data ++ inlineList cs ++ ("</u>").data
    else if n = "br" then ("<br/>").data
    else if n = "a" then
      ("<a href=\"").data ++ escapeChars (findHref attrs).data ++ ("\">").data ++
        inlineList cs ++ ("</a>").data
    else inlineList cs
/-- Characters written for a list of children, in order. -/
def inlineList : List HNode → List Char
  | [] => []
  | n :: ns => inlineChars n ++ inlineList ns
end

/-- `inlineHTML`: whitelist-only HTML of a node (the recursion starts at the
node itself; the block wrappers `p`/`li`/`blockquote` fall into the unwrap
case, so in the pipeline this yields the inner HTML). -/
def inlineHTML (n : HNode) : String :=
  String.mk (inlineChars n)

/-- `nodeText`: plain text of a node with whitespace collapsed
(`strings.Join(strings.Fields(text), " ")`). -/
def nodeText (n : HNode) : String :=
  fieldsJoin (rawText n)

/-- `isSceneBreakText`: non-blank text matching one of the configured
scene-break patterns. -/
def isSceneBreakText (txt : String) (pats : List (String → Bool)) : Bool :=
  if goTrimSpace txt = "" then false
  else pats.any (fun p => p txt)

/-- `emitSceneBreak`: the marker for a scene-break style ("spacer" yields the
empty-paragraph marker, "none" yields nothing, anything else the rule
marker). -/
def emitSceneBreak (style : String) : String :=
  if lowerStr style = "spacer" then "<p class=\"spacer\"></p>"
  else if lowerStr style = "none" then ""
  else "<hr class=\"scene-break\"/>"

/-- `isSceneBreakHTML`: exactly the two marker strings. -/
def isSceneBreakHTML (s : String) : Bool :=
  s = "<hr class=\"scene-break\"/>" || s = "<p class=\"spacer\"></p>"

/-! ### The `<br>`-run collapser (`replaceBRRuns`)

The source compiles `(?i)(?:<br\s*/?>\s*){n,}` and replaces every
(leftmost, non-overlapping, greedy) match by the scene-break marker.  The
scanner below implements exactly that: `matchUnit` consumes one
`<br\s*/?>\s*` unit, `brRunLenF` counts a maximal run of units, and
`replaceGoF` walks the string replacing runs of at least `n` units.  A match
can only begin at a `<`, so skipping over a shorter-than-`n` run or a
non-matching character is faithful to the regex semantics.  Recursion is by
character-count fuel so that all definitions compute by `rfl`. -/

/-- Consume one case-insensitive `<br\s*/?>\s*` unit, returning the number of
characters matched. -/
def matchUnit : List Char → Option Nat
  | c0 :: c1 :: c2 :: rest =>
    if c0 = '<' && c1.toLower = 'b' && c2.toLower = 'r' then
      let s1 := (rest.takeWhile isRe2Space).length
      match rest.drop s1 with
      | '/' :: '>' :: r3 => some (3 + s1 + 2 + (r3.takeWhile isRe2Space).length)
      | '>' :: r3 => some (3 + s1 + 1 + (r3.takeWhile isRe2Space).length)
      | _ => none
    else none
  | _ => none

/-- Count the maximal run of `<br>` units at the head: (units, characters). -/
def brRunLenF : Nat → List Char → Nat × Nat
  | 0, _ => (0, 0)
  | f + 1, cs =>
    match matchUnit cs with
    | none => (0, 0)
    | some k =>
      let p := brRunLenF f (cs.drop k)
      (p.1 + 1, k + p.2)

/-- Maximal `<br>`-unit run at the head of a character list. -/
def brRunLen (cs : List Char) : Nat × Nat :=
  brRunLenF cs.length cs

/-- Walk the string, replacing each maximal run of at least `n` units by the
marker `sb` and copying everything else. -/
def replaceGoF (n : Int) (sb : List Char) : Nat → List Char → List Char
  | 0, cs => cs
  | _ + 1, [] => []
  | f + 1, c :: cs =>
    let p := brRunLen (c :: cs)
    if 0 < p.1 then
      if n ≤ (p.1 : Int) then sb ++ replaceGoF n sb f ((c :: cs).drop p.2)
      else (c :: cs).take p.2 ++ replaceGoF n sb f ((c :: cs).drop p.2)
    else c :: replaceGoF n sb f cs

/-- `replaceBRRuns`: collapse runs of `n` or more consecutive line breaks into
one scene-break marker; a threshold of at most 1 or the style "none" leaves
the input unchanged. -/
def replaceBRRuns (s : String) (n : Int) (style : String) : String :=
  if n ≤ 1 || lowerStr style = "none" then s
  else String.mk (replaceGoF n (emitSceneBreak style).data (s.data.length + 1) s.data)

/-! ### The scene-break splitter (`splitOnSceneBreak`)

The source splits on `(<hr class="scene-break"\s*/>)|(<p class="spacer"></p>)`
and interleaves the non-empty split parts with the matched marker texts. -/

/-- Consume one scene-break marker at the head, returning the number of
characters matched. -/
def matchMarker (cs : List Char) : Option Nat :=
  let hrPre := ("<hr class=\"scene-break\"").data
  let spacer := ("<p class=\"spacer\"></p>").data
  if headMatches hrPre cs then
    let rest := cs.drop hrPre.length
    let s1 := (rest.takeWhile isRe2Space).length
    match rest.drop s1 with
    | '/' :: '>' :: _ => some (hrPre.length + s1 + 2)
    | _ => if headMatches spacer cs then some spacer.length else none
  else if headMatches spacer cs then some spacer.length else none

/-- Walk the string accumulating the current part in `acc`; at each marker
match emit the non-empty part and then the matched marker text. -/
def splitGoF : Nat → List Char → List Char → List String
  | 0, acc, cs => if acc ++ cs = [] then [] else [String.mk (acc ++ cs)]
  | _ + 1, acc, [] => if acc = [] then [] else [String.mk acc]
  | f + 1, acc, c :: cs =>
    match matchMarker (c :: cs) with
    | some k =>
      (if acc = [] then [] else [String.mk acc]) ++
        String.mk ((c :: cs).take k) :: splitGoF f [] ((c :: cs).drop k)
    | none => splitGoF f (acc ++ [c]) cs

/-- `splitOnSceneBreak`: non-empty parts interleaved with matched markers. -/
def splitOnSceneBreak (s : String) : List String :=
  splitGoF (s.data.length + 1) [] s.data

/-! ### `stripTags` and `reSpace` -/

/-- Walk the string removing every match of `<[^>]+>` (a `<`, at least one
non-`>` character, then `>`). -/
def stripTagsF : Nat → List Char → List Char
  | 0, cs => cs
  | _ + 1, [] => []
  | f + 1, c :: cs =>
    if c = '<' then
      let body := cs.takeWhile (fun d => d ≠ '>')
      if body.length < cs.length && 0 < body.length then
        stripTagsF f (cs.drop (body.length + 1))
      else c :: stripTagsF f cs
    else c :: stripTagsF f cs

/-- `stripTags`: delete every `<[^>]+>` span. -/
def stripTags (s : String) : String :=
  String.mk (stripTagsF (s.data.length + 1) s.data)

/-- Worker for `reSpace`: collapse RE2-whitespace runs to one space. -/
def reSpaceGo : Bool → List Char → List Char
  | _, [] => []
  | prevSp, c :: cs =>
    if isRe2Space c then
      if prevSp then reSpaceGo true cs else ' ' :: reSpaceGo true cs
    else c :: reSpaceGo false cs

/-- `reSpace`: replace every `\s+` run by a single space. -/
def reSpace (s : String) : String :=
  String.mk (reSpaceGo false s.data)

/-! ### Block assembly (`paragraphsWithInline`) -/

/-- The part-folding loop inside `push`: accumulate non-marker parts into a
buffer; at each marker emit the buffered text wrapped in the block tag (if
non-blank) followed by the marker, and flush the buffer at the end. -/
def emitParts (tag : String) (parts : List String) (blocks : List String) : List String :=
  let step := fun (st : List String × String) (p : String) =>
    if isSceneBreakHTML p then
      let t := goTrimSpace st.2
      let bs := if t = "" then st.1
        else st.1 ++ ["<" ++ tag ++ ">" ++ t ++ "</" ++ tag ++ ">"]
      (bs ++ [p], "")
    else (st.1, st.2 ++ p)
  let st := parts.foldl step (blocks, "")
  let t := goTrimSpace st.2
  if t = "" then st.1 else st.1 ++ ["<" ++ tag ++ ">" ++ t ++ "</" ++ tag ++ ">"]

/-- The `push` closure of `paragraphsWithInline`: a block whose collapsed text
matches a scene-break pattern becomes one marker (or nothing for style
"none"); otherwise its inline HTML is rebuilt, `<br>` runs are collapsed, and
the result is split at embedded markers and wrapped in the block tag. -/
def pushBlock (cfg : ParserConfig) (tag : String) (el : HNode)
    (blocks : List String) : List String :=
  let raw := goTrimSpace (nodeText el)
  if isSceneBreakText raw cfg.SceneBreakPatterns then
    if emitSceneBreak cfg.SceneBreakStyle = "" then blocks
    else blocks ++ [emitSceneBreak cfg.SceneBreakStyle]
  else
    let inner := replaceBRRuns (inlineHTML el) cfg.ConsecutiveBRThreshold cfg.SceneBreakStyle
    emitParts tag (splitOnSceneBreak inner) blocks

/-- The per-descendant dispatch of `paragraphsWithInline`: `p`/`li` push a
`p` block, `blockquote` a `blockquote` block, a bare `hr` emits a marker. -/
def blockStep (cfg : ParserConfig) (blocks : List String) (n : HNode) : List String :=
  match n with
  | .elem name _ _ =>
    let ln := lowerStr name
    if ln = "p" || ln = "li" then pushBlock cfg ("p") n blocks
    else if ln = "blockquote" then pushBlock cfg ("blockquote") n blocks
    else if ln = "hr" then
      if emitSceneBreak cfg.SceneBreakStyle = "" then blocks
      else blocks ++ [emitSceneBreak cfg.SceneBreakStyle]
    else blocks
  | _ => blocks

/-- The de-duplication loop at the end of `paragraphsWithInline`: drop a
marker that immediately follows another marker. -/
def dedupAdjacent (blocks : List String) : List String :=
  blocks.foldl (fun out b =>
    if !out.isEmpty && isSceneBreakHTML b && isSceneBreakHTML (out.getLastD "") then out
    else out ++ [b]) []

/-- `paragraphsWithInline`: walk every strict descendant of each selection
node in document pre-order, emit blocks, then de-duplicate adjacent
markers. -/
def paragraphsWithInline (sel : List HNode) (cfg : ParserConfig) : List String :=
  dedupAdjacent (((sel.map descOf).flatten).foldl (blockStep cfg) [])

/-! ### Noise stripping (`stripNoise`) -/

/-- Whitespace-separated words of a string (Go `strings.Fields` shape, used
for CSS class matching). -/
def splitWSGo : List Char → List Char → List (List Char)
  | cur, [] => if cur.isEmpty then [] else [cur]
  | cur, c :: cs =>
    if isGoSpace c then
      if cur.isEmpty then splitWSGo [] cs else cur :: splitWSGo [] cs
    else splitWSGo (cur ++ [c]) cs

/-- CSS class selector `.cls`: the element's `class` attribute, split on
whitespace, contains `cls`. -/
def hasClass (cls : String) : HNode → Bool
  | .elem _ attrs _ =>
    match attrOf attrs ("class") with
    | some v => (splitWSGo [] v.data).contains cls.data
    | none => false
  | _ => false

/-- The fixed noise denylist of `stripNoise`, one predicate per selector. -/
def noisePreds : List (HNode → Bool) :=
  [isTag ("nav"), isTag ("header"), isTag ("footer"), hasClass ("sharedaddy"),
   hasClass ("jp-relatedposts"), hasClass ("post-meta"), hasClass ("post-navigation"),
   hasClass ("entry-footer"), hasClass ("site-footer"), isTag ("script"),
   isTag ("style"), isTag ("figure"), isTag ("aside"), isTag ("iframe"),
   hasClass ("adsbygoogle")]

mutual
/-- Remove every strict descendant matching `p` (the selection root itself is
kept, matching goquery `node.Find(sel).Remove()`). -/
def removeAll (p : HNode → Bool) : HNode → HNode
  | .text s => .text s
  | .comment s => .comment s
  | .elem n a cs => .elem n a (removeAllList p cs)
/-- Remove matching nodes from a forest, recursing into survivors. -/
def removeAllList (p : HNode → Bool) : List HNode → List HNode
  | [] => []
  | n :: ns => if p n then removeAllList p ns else removeAll p n :: removeAllList p ns
end

/-- `stripNoise` applied to one selection node: remove each denylisted
selector's matches in turn. -/
def stripNoiseNode (n : HNode) : HNode :=
  noisePreds.foldl (fun m p => removeAll p m) n

/-! ### Content-root selection (`findContent`)

Selections are represented by the path (child indices) of the selected node,
so that the in-place `stripNoise` mutation of the shared document can be
reproduced by rebuilding the document with the stripped subtree. -/

mutual
/-- Path (child indices) of the first strict descendant satisfying `p`, in
document pre-order. -/
def findPathIn : HNode → (HNode → Bool) → Option (List Nat)
  | .text _, _ => none
  | .comment _, _ => none
  | .elem _ _ cs, p => findPathList cs p 0
/-- Path search through a forest starting at child index `i`. -/
def findPathList : List HNode → (HNode → Bool) → Nat → Option (List Nat)
  | [], _, _ => none
  | c :: cs, p, i =>
    if p c then some [i]
    else
      match findPathIn c p with
      | some path => some (i :: path)
      | none => findPathList cs p (i + 1)
end

/-- Node at a path. -/
def getAt : HNode → List Nat → Option HNode
  | n, [] => some n
  | n, i :: rest =>
    match n.children.get? i with
    | some c => getAt c rest
    | none => none

/-- Rewrite the node at a path with `f`, leaving the rest of the tree as is. -/
def modifyAt (f : HNode → HNode) : HNode → List Nat → HNode
  | n, [] => f n
  | .elem nm a cs, i :: rest =>
    match cs.get? i with
    | some c => .elem nm a (cs.set i (modifyAt f c rest))
    | none => .elem nm a cs
  | n, _ :: _ => n

/-- First candidate selector with a match, in candidate order. -/
def firstCandidate (doc : HNode) : List (HNode → Bool) → Option (List Nat)
  | [] => none
  | p :: ps =>
    match findPathIn doc p with
    | some path => some path
    | none => firstCandidate doc ps

/-- The generic-container fallback `article, main, .content, #content`. -/
def genericFallbackPred (n : HNode) : Bool :=
  isTag ("article") n || isTag ("main") n || hasClass ("content") n ||
    hasAttrEq ("id") ("content") n

/-- `findContent`: first candidate match, else the generic containers, else
the (possibly empty) `body` selection.  The outer `Option` mirrors the Go
`*Selection` being `nil`: every return path yields `some`, the inner `Option`
is the selection's content. -/
def findContent (doc : HNode) (cands : List (HNode → Bool)) :
    Option (Option (List Nat)) :=
  match firstCandidate doc cands with
  | some path => some (some path)
  | none =>
    match findPathIn doc genericFallbackPred with
    | some path => some (some path)
    | none => some (findPathIn doc (isTag ("body")))

/-! ### Title and code (`titleAndCode`, `chCodeRe`)

`chCodeRe` is the literal pattern `\b(\d+\.\d+\s*[A-Z]?)\b`.  The matcher
below implements RE2's leftmost-first semantics directly: the two `\d+` and
the following `.` are deterministic, and the backtracking order tries longer
`\s*` before shorter and a present `[A-Z]` before an absent one, each guarded
by the trailing `\b`. -/

/-- Is a position a RE2 `\b` boundary, given whether the previous character is
a word character and what the next character is (ends count as non-word)? -/
def boundaryOk (prevWord : Bool) (next : Option Char) : Bool :=
  match next with
  | none => prevWord
  | some c => prevWord ≠ isWordChar c

/-- Try to finish a `chCodeRe` match after `\d+\.\d+` with exactly `j`
whitespace characters consumed: first with a trailing `[A-Z]`, then without,
each checked against the final `\b`. -/
def tryTail (d1 d2 rest3 : List Char) (j : Nat) : Option (List Char) :=
  let after := rest3.drop j
  let withLetter : Option (List Char) :=
    match after with
    | c :: rest4 =>
      if 'A' ≤ c && c ≤ 'Z' then
        if boundaryOk true rest4.head? then
          some (d1 ++ '.' :: d2 ++ rest3.take j ++ [c])
        else none
      else none
    | [] => none
  match withLetter with
  | some g => some g
  | none =>
    let prevWord := j = 0
    if boundaryOk prevWord after.head? then some (d1 ++ '.' :: d2 ++ rest3.take j)
    else none

/-- Backtrack the greedy `\s*` from `j` whitespace characters down to none. -/
def trySpaces (d1 d2 rest3 : List Char) : Nat → Option (List Char)
  | 0 => tryTail d1 d2 rest3 0
  | j + 1 =>
    match tryTail d1 d2 rest3 (j + 1) with
    | some g => some g
    | none => trySpaces d1 d2 rest3 j

/-- Try a `chCodeRe` match starting at the head of `cs`, where `prev` is the
character before `cs` (for the leading `\b`; the first matched character is a
digit, so the boundary requires `prev` to be a non-word character). -/
def matchCodeAt (prev : Option Char) (cs : List Char) : Option (List Char) :=
  let prevWord := match prev with
    | some c => isWordChar c
    | none => false
  if prevWord then none
  else
    let d1 := cs.takeWhile Char.isDigit
    if d1.isEmpty then none
    else
      match cs.drop d1.length with
      | '.' :: rest2 =>
        let d2 := rest2.takeWhile Char.isDigit
        if d2.isEmpty then none
        else
          let rest3 := rest2.drop d2.length
          trySpaces d1 d2 rest3 (rest3.takeWhile isRe2Space).length
      | _ => none

/-- Leftmost `chCodeRe` match in a character list. -/
def findCode : Option Char → List Char → Option (List Char)
  | _, [] => none
  | prev, c :: cs =>
    match matchCodeAt prev (c :: cs) with
    | some g => some g
    | none => findCode (some c) cs

/-- `chCodeRe.FindStringSubmatch`'s captured group, when the title matches. -/
def chCodeFind (s : String) : Option String :=
  (findCode none s.data).map String.mk

/-- `titleAndCode`: title from the first `h1`, else the `og:title` meta
content, else "Untitled Chapter"; code from the `chCodeRe` match
(whitespace-normalized) when present, else the full title. -/
def titleAndCode (doc : HNode) : String × String :=
  let t0 := goTrimSpace (match findFirst doc (isTag ("h1")) with
    | some n => rawText n
    | none => "")
  let t1 :=
    if t0 = "" then
      match findFirst doc
          (fun n => isTag ("meta") n && hasAttrEq ("property") ("og:title") n) with
      | some m =>
        match m with
        | .elem _ attrs _ =>
          match attrOf attrs ("content") with
          | some c => goTrimSpace c
          | none => t0
        | _ => t0
      | none => t0
    else t0
  let t := if t1 = "" then "Untitled Chapter" else t1
  let code :=
    match chCodeFind t with
    | some m1 => goTrimSpace (reSpace m1)
    | none => t
  (t, code)

/-! ### Pagination (`nextURL`) -/

/-- The `link[rel*="next"]` selector. -/
def linkRelNext (n : HNode) : Bool :=
  isTag ("link") n && hasAttrContaining ("rel") ("next") n

/-- The `href` attribute of an element, when present. -/
def anchorHref (n : HNode) : Option String :=
  match n with
  | .elem _ attrs _ => attrOf attrs ("href")
  | _ => none

/-- The `Each` callback of `nextURL`'s exact-text scan: keep an already found
result, otherwise take this anchor's non-empty href when its trimmed text
equals one of the configured NextTexts. -/
def anchorScanStep (nts : List String) (nxt : Option String) (a : HNode) :
    Option String :=
  match nxt with
  | some _ => nxt
  | none =>
    let t := goTrimSpace (rawText a)
    if nts.any (fun nt => t = nt) then
      match anchorHref a with
      | some href => if href = "" then none else some href
      | none => none
    else none

/-- `nextURL`: first the first `link[rel*="next"]`'s non-empty href, then the
first anchor in document order whose trimmed text equals a configured
NextTexts entry (with a non-empty href), then the first anchor whose trimmed
text contains "next" case-insensitively (taking its href only if non-empty). -/
def nextURL (doc : HNode) (cfg : ParserConfig) : Option String :=
  let fromLink : Option String :=
    match findFirst doc linkRelNext with
    | some l =>
      match anchorHref l with
      | some href => if href = "" then none else some href
      | none => none
    | none => none
  match fromLink with
  | some u => some u
  | none =>
    let anchors := findAll doc (isTag ("a"))
    let exact := anchors.foldl (anchorScanStep cfg.NextTexts) none
    match exact with
    | some u => some u
    | none =>
      match anchors.find? (fun a => containsNextFold (goTrimSpace (rawText a))) with
      | some a =>
        match anchorHref a with
        | some href => if href = "" then none else some href
        | none => none
      | none => none

/-! ### `ParseChapter` -/

/-- Go `strings.Join(blocks, sep)`. -/
def goJoin (sep : String) : List String → String
  | [] => ""
  | [b] => b
  | b :: c :: bs => b ++ sep ++ goJoin sep (c :: bs)

/-- `parse.ParseChapter`: resolve title and code, select the content root,
strip noise in place (reproduced by rebuilding the document with the stripped
subtree), assemble the whitelisted block HTML, reject chapters whose plain
text is shorter than `MinTextLen` bytes, and resolve the next-page URL from
the (stripped) document. -/
def parseChapter (doc : HNode) (pageURL : String) (cfg : ParserConfig) :
    Except String (Chapter × Option String) :=
  let tc := titleAndCode doc
  match findContent doc cfg.SelectorCandidates with
  | none => .error ("content node not found")
  | some sel =>
    let doc2 := match sel with
      | some path => modifyAt stripNoiseNode doc path
      | none => doc
    let content : List HNode := match sel with
      | some path => (getAt doc2 path).toList
      | none => []
    let bodyHTML := goJoin ("\n") (paragraphsWithInline content cfg)
    let plain := stripTags bodyHTML
    if (utf8Len (goTrimSpace plain).data : Int) < cfg.MinTextLen then
      .error ("chapter too short")
    else
      .ok (⟨tc.1, tc.2, pageURL, bodyHTML⟩, nextURL doc2 cfg)

/-! ### The fetch client (`fetch.Client.Get`)

Only the post-transport status handling is modelled: the rate-limiter wait,
request construction and transport are outside a pure embedding.  The `Bool`
component records whether the response body was closed by `Get`. -/

/-- An HTTP response as `Client.Get` sees it after `http.Client.Do`. -/
structure HTTPResponse where
  status : Nat
  statusLine : String
  body : String
deriving DecidableEq

/-- The status check in `Client.Get`: a status of 400 or above closes the
body and returns an error; anything below 400 is handed to the caller with
the body open.  No retry path exists. -/
def clientGet (resp : HTTPResponse) : Except String HTTPResponse × Bool :=
  if 400 ≤ resp.status then (.error resp.statusLine, true)
  else (.ok resp, false)

/-- Is a status in the 2xx success class? -/
def is2xx (status : Nat) : Bool :=
  200 ≤ status && status ≤ 299

/-! ### URL resolution (`resolveURL` and the `net/url` subset it uses)

The embedding covers `url.Parse`, `URL.ResolveReference`, `resolvePath` and
`URL.String` for the fragment/scheme/authority/path/query structure, without
percent-escaping, userinfo splitting or `ForceQuery` (none of which the
crawler's inputs exercise). -/

/-- A parsed URL (`url.URL`); `opq` is the rootless-path `Opaque` field. -/
structure GoURL where
  scheme : String := ""
  opq : String := ""
  host : String := ""
  path : String := ""
  query : String := ""
  frag : String := ""
deriving DecidableEq

/-- Scheme characters after the first position. -/
def isSchemeChar (c : Char) : Bool :=
  c.isAlpha || c.isDigit || c = '+' || c = '-' || c = '.'

/-- Go `getScheme`: split a leading `scheme:`; `.error` is the "missing
protocol scheme" failure for a leading `:`. -/
def schemeSplit (cs : List Char) : Except Unit (List Char × List Char) :=
  let pre := cs.takeWhile isSchemeChar
  match cs.drop pre.length with
  | ':' :: rest =>
    match pre with
    | [] => .error ()
    | c :: _ => if c.isAlpha then .ok (lowerChars pre, rest) else .ok ([], cs)
  | _ => .ok ([], cs)

/-- Go `url.Parse` on the modelled structure; `none` is a parse error. -/
def parseURL (s : String) : Option GoURL :=
  let cs := s.data
  let beforeFrag := cs.takeWhile (fun c => c ≠ '#')
  let frag := cs.drop (beforeFrag.length + 1)
  match schemeSplit beforeFrag with
  | .error _ => none
  | .ok (sch, rest0) =>
    let rest1 := rest0.takeWhile (fun c => c ≠ '?')
    let query := rest0.drop (rest1.length + 1)
    if !sch.isEmpty && !headMatches ['/'] rest1 then
      some { scheme := String.mk sch, opq := String.mk rest1,
             query := String.mk query, frag := String.mk frag }
    else if sch.isEmpty && !headMatches ['/'] rest1 &&
        (rest1.takeWhile (fun c => c ≠ '/')).contains ':' then none
    else if (!sch.isEmpty || !headMatches ['/', '/', '/'] rest1) &&
        headMatches ['/', '/'] rest1 then
      let auth := (rest1.drop 2).takeWhile (fun c => c ≠ '/')
      let path := (rest1.drop 2).drop auth.length
      some { scheme := String.mk sch, host := String.mk auth,
             path := String.mk path, query := String.mk query,
             frag := String.mk frag }
    else
      some { scheme := String.mk sch, path := String.mk rest1,
             query := String.mk query, frag := String.mk frag }

/-- Go `URL.String` for the modelled structure. -/
def urlString (u : GoURL) : String :=
  (if u.scheme ≠ "" then u.scheme ++ ":" else "") ++
  (if u.opq ≠ "" then u.opq
   else
     (if (u.scheme ≠ "" ∨ u.host ≠ "") ∧ (u.host ≠ "" ∨ u.path ≠ "") then
        "//" ++ u.host
      else "") ++ u.path) ++
  (if u.query ≠ "" then "?" ++ u.query else "") ++
  (if u.frag ≠ "" then "#" ++ u.frag else "")

/-- Characters of `base` up to and including its last `/` (empty when `base`
has none), as in `base[:strings.LastIndex(base, "/")+1]`. -/
def lastSlashPfx (cs : List Char) : List Char :=
  (cs.reverse.dropWhile (fun c => c ≠ '/')).reverse

/-- Go `strings.Split` on a single separator character (keeps empties). -/
def splitOnChar (sep : Char) : List Char → List (List Char)
  | [] => [[]]
  | c :: cs =>
    if c = sep then [] :: splitOnChar sep cs
    else
      match splitOnChar sep cs with
      | w :: ws => (c :: w) :: ws
      | [] => [[c]]

/-- Join with a separator character (`strings.Join`). -/
def joinChar (sep : Char) : List (List Char) → List Char
  | [] => []
  | [w] => w
  | w :: ws => w ++ sep :: joinChar sep ws

/-- Drop one leading slash (`strings.TrimPrefix(s, "/")`). -/
def trimLeadSlash : List Char → List Char
  | '/' :: rest => rest
  | cs => cs

/-- Go `resolvePath`: merge `ref` onto `base`, then process `.` and `..`
segments against a stack, restoring a trailing slash after a final dot
segment. -/
def resolvePath (base ref : String) : String :=
  let full : List Char :=
    if ref = "" then base.data
    else if ref.data.head? ≠ some '/' then lastSlashPfx base.data ++ ref.data
    else ref.data
  if full.isEmpty then ""
  else
    let src := splitOnChar '/' full
    let dst := src.foldl (fun dst e =>
      if e = ['.'] then dst
      else if e = ['.', '.'] then dst.dropLast
      else dst ++ [e]) []
    let dst2 :=
      match src.getLast? with
      | some last => if last = ['.'] || last = ['.', '.'] then dst ++ [[]] else dst
      | none => dst
    String.mk ('/' :: trimLeadSlash (joinChar '/' dst2))

/-- Go `URL.ResolveReference` for the modelled structure. -/
def resolveReference (u r : GoURL) : GoURL :=
  let sch := if r.scheme = "" then u.scheme else r.scheme
  if r.scheme ≠ "" ∨ r.host ≠ "" then
    { r with scheme := sch, path := resolvePath r.path "" }
  else if r.opq ≠ "" then r
  else
    let q := if r.path = "" ∧ r.query = "" then u.query else r.query
    let f := if r.path = "" ∧ r.query = "" ∧ r.frag = "" then u.frag else r.frag
    if r.path = "" ∧ u.opq ≠ "" then
      { scheme := sch, opq := u.opq, host := "", path := "", query := q, frag := f }
    else
      { scheme := sch, opq := "", host := u.host,
        path := resolvePath u.path r.path, query := q, frag := f }

/-- `app.resolveURL`: trim the href; an absolute href (scheme and host both
present) is serialized as-is, otherwise it is resolved against the current
page's URL; any parse failure yields the empty string. -/
def resolveURL (baseStr href : String) : String :=
  let href2 := goTrimSpace href
  if href2 = "" then ""
  else
    match parseURL href2 with
    | none => ""
    | some h =>
      if h.scheme ≠ "" ∧ h.host ≠ "" then urlString h
      else
        match parseURL baseStr with
        | none => ""
        | some bu => urlString (resolveReference bu h)

/-! ### The crawl orchestrator (`app.Runner`) -/

/-- `app.Options`. -/
structure RunnerOptions where
  MaxPages : Int
  SaveEach : Bool

/-- The `MaxPages` floor applied by `NewRunner`. -/
def newRunnerMaxPages (m : Int) : Int :=
  if m < 1 then 1 else m

/-- A page-level failure before parsing: transport (`Get`) or HTML
decoding (`goquery.NewDocumentFromReader`). -/
inductive FetchErr where
  | get (msg : String)
  | parseHTML (msg : String)

/-- The world a crawl runs against: a fetch-and-decode oracle per URL and an
optional `Saver` (`none` is a nil store). -/
structure CrawlWorld where
  fetchDoc : String → Except FetchErr HNode
  save : Option (Chapter → Option String)

/-- One `Run` loop, with the page budget as fuel.  The result carries the
accumulated chapters, the error (if the run aborted) and the number of pages
fetched; every error branch discards the accumulated chapters exactly as the
Go code returns `RunResult{}`. -/
def runLoopF (w : CrawlWorld) (cfg : ParserConfig) (saveEach : Bool) :
    Nat → String → List Chapter → Nat → List Chapter × Option String × Nat
  | 0, _, acc, att => (acc, none, att)
  | fuel + 1, current, acc, att =>
    if current = "" then (acc, none, att)
    else
      match w.fetchDoc current with
      | .error (.get e) => ([], some ("get " ++ current ++ ": " ++ e), att + 1)
      | .error (.parseHTML e) =>
        ([], some ("parse html " ++ current ++ ": " ++ e), att + 1)
      | .ok doc =>
        match parseChapter doc current cfg with
        | .error e => ([], some ("parse chapter " ++ current ++ ": " ++ e), att + 1)
        | .ok (ch, next) =>
          let saveErr : Option String :=
            if saveEach then
              match w.save with
              | some sv => sv ch
              | none => none
            else none
          match saveErr with
          | some e => ([], some ("save chapter " ++ ch.Title ++ ": " ++ e), att + 1)
          | none =>
            let acc2 := acc ++ [ch]
            match next with
            | none => (acc2, none, att + 1)
            | some nx =>
              if goTrimSpace nx = "" then (acc2, none, att + 1)
              else
                let nxt := resolveURL current nx
                if nxt = "" then (acc2, none, att + 1)
                else runLoopF w cfg saveEach fuel nxt acc2 (att + 1)

/-- `Runner.Run` for a runner built by `NewRunner`: the loop runs for the
normalized `MaxPages` budget starting from `startURL`. -/
def runnerRun (w : CrawlWorld) (cfg : ParserConfig) (opt : RunnerOptions)
    (startURL : String) : List Chapter × Option String × Nat :=
  runLoopF w cfg opt.SaveEach (newRunnerMaxPages opt.MaxPages).toNat startURL [] 0

/-! ## Fixtures used by the theorems below -/

/-- Fixture: a page with an `h1` title carrying a chapter code. -/
def docTitleA : HNode :=
  .elem ("html") []
    [.elem ("body") []
      [.elem ("h1") [] [.text ("Chapter 12.3B — Arrival")],
       .elem ("p") [] [.text ("hello world")]]]

/-- Fixture: a page whose `h1` title has no numeric code. -/
def docTitleB : HNode :=
  .elem ("html") []
    [.elem ("body") [] [.elem ("h1") [] [.text ("Prologue")]]]

/-- Fixture: a page without `h1` but with an `og:title` meta tag. -/
def docTitleC : HNode :=
  .elem ("html") []
    [.elem ("head") []
      [.elem ("meta") [("property", "og:title"), ("content", "Side Story 2.5")] []],
     .elem ("body") [] []]

/-- Fixture: a page with neither `h1` nor `og:title`. -/
def docTitleD : HNode :=
  .elem ("html") [] [.elem ("body") [] [.elem ("p") [] [.text ("words")]]]

/-- Fixture: a page carrying both a `rel="next"` link (to `/a`) and a
differently-targeted "Next Chapter" anchor (to `/b`). -/
def docNext : HNode :=
  .elem ("html") []
    [.elem ("head") [] [.elem ("link") [("rel", "next"), ("href", "/a")] []],
     .elem ("body") [] [.elem ("a") [("href", "/b")] [.text ("Next Chapter")]]]

/-- Fixture configuration for the pagination claims. -/
def cfgNext : ParserConfig :=
  { SelectorCandidates := [], NextTexts := ["Next", "Next Chapter"], MinTextLen := 0,
    SceneBreakPatterns := [], SceneBreakStyle := "hr", ConsecutiveBRThreshold := 3 }

/-- Fixture: a page whose extracted text is 10 characters long. -/
def shortDoc : HNode :=
  .elem ("html") [] [.elem ("body") [] [.elem ("p") [] [.text ("hi, a page")]]]

/-- Fixture configuration with `MinTextLen` 50. -/
def cfgShort : ParserConfig :=
  { SelectorCandidates := [], NextTexts := [], MinTextLen := 50,
    SceneBreakPatterns := [], SceneBreakStyle := "hr", ConsecutiveBRThreshold := 3 }

/-- Fixture world: the start page `"u"` serves `shortDoc`, everything else
fails to fetch; no store. -/
def shortWorld : CrawlWorld :=
  { fetchDoc := fun u => if u = "u" then .ok shortDoc else .error (.get ("no page")),
    save := none }

/-- Fixture configuration whose scene-break pattern is an exact `* * *`
match, rendered with style "hr". -/
def sceneCfg : ParserConfig :=
  { SelectorCandidates := [], NextTexts := [], MinTextLen := 0,
    SceneBreakPatterns := [fun s => s = "* * *"], SceneBreakStyle := "hr",
    ConsecutiveBRThreshold := 3 }

/-- Fixture: a content root holding two adjacent scene-break paragraphs. -/
def sceneDoc : HNode :=
  .elem ("div") []
    [.elem ("p") [] [.text ("* * *")], .elem ("p") [] [.text ("* * *")]]

/-- Fixture world where every fetch fails; no store. -/
def failWorld : CrawlWorld :=
  { fetchDoc := fun _ => .error (.get ("refused")), save := none }

/-- Fixture: a page exercising the inline whitelist (emphasis, raw
ampersand, a nested unwrapped span). -/
def docRich : HNode :=
  .elem ("html") []
    [.elem ("body") []
      [.elem ("p") []
        [.text ("x "), .elem ("em") [] [.text ("y & z")],
         .elem ("span") [("class", "x")] [.text (" tail")]]]]

/-- Fixture configuration accepting short chapters. -/
def cfgRich : ParserConfig :=
  { SelectorCandidates := [], NextTexts := [], MinTextLen := 1,
    SceneBreakPatterns := [], SceneBreakStyle := "hr", ConsecutiveBRThreshold := 3 }

/-! ## C6: fetcher status handling -/

/-- C6 counterexample: status 304 is not 2xx, yet `Client.Get` returns the
response to the caller with the body open — the claim "a non-2xx status is
treated as a hard error" is false at this input. -/
theorem C6_counterexample :
    is2xx 304 = false ∧
    clientGet { status := 304, statusLine := "304 Not Modified", body := "" } =
      (.ok { status := 304, statusLine := "304 Not Modified", body := "" }, false) := by
  exact ⟨rfl, rfl⟩

/-- C6 (amended): for every HTTP response received by `Client.Get`, a status
of 400 or above is a hard error — the body is closed and an error carrying
the status line is returned — and a response is returned to the caller, with
the body left open, exactly when the status is below 400 (including 3xx);
no retry is attempted. -/
theorem C6_fetch_status (r : HTTPResponse) :
    (400 ≤ r.status → clientGet r = (.error r.statusLine, true)) ∧
    (r.status < 400 → clientGet r = (.ok r, false)) := by
  constructor
  · intro h
    simp [clientGet, h]
  · intro h
    simp [clientGet, Nat.not_le_of_lt h]

/-- Witness for C6: the amended theorem applied at statuses 404 and 200. -/
theorem C6_fetch_status_witness :
    clientGet ⟨404, "404 Not Found", ""⟩ = (.error ("404 Not Found"), true) ∧
    clientGet ⟨200, "200 OK", "x"⟩ = (.ok ⟨200, "200 OK", "x"⟩, false) :=
  ⟨(C6_fetch_status ⟨404, "404 Not Found", ""⟩).1 (by decide),
   (C6_fetch_status ⟨200, "200 OK", "x"⟩).2 (by decide)⟩

/-! ## C8: relative URL resolution -/

/-- C8: an href that already carries scheme and host is serialized as-is
(its own parse, not the base, is returned), and the two spec scenarios
resolve by standard URL-reference resolution. -/
theorem C8_relative_url_resolution :
    (∀ base href h, parseURL (goTrimSpace href) = some h → h.scheme ≠ "" →
      h.host ≠ "" → resolveURL base href = urlString h) ∧
    resolveURL ("https://site.example/b/ch1") ("ch2") = "https://site.example/b/ch2" ∧
    resolveURL ("https://site.example/b/ch1") ("/other/ch2") =
      "https://site.example/other/ch2" := by
  refine ⟨?_, by decide, by decide⟩
  intro base href h hp hs hh
  by_cases h0 : goTrimSpace href = ""
  · rw [h0] at hp
    have : h = { scheme := "", opq := "", host := "", path := "",
                 query := "", frag := "" } := by
      have : parseURL "" = some { scheme := "", opq := "", host := "", path := "",
                                  query := "", frag := "" } := by decide
      rw [this] at hp
      exact (Option.some_injective _ hp).symm
    rw [this] at hs
    simp at hs
  · unfold resolveURL
    rw [if_neg h0, hp]
    simp only [if_pos (And.intro hs hh)]

/-- Witness for C8: the as-is branch applied at a concrete absolute href. -/
theorem C8_relative_url_resolution_witness :
    resolveURL ("x") ("https://a.example/p?q=1") = "https://a.example/p?q=1" :=
  (C8_relative_url_resolution.1 ("x") ("https://a.example/p?q=1")
    { scheme := "https", host := "a.example", path := "/p", query := "q=1" }
    (by decide) (by decide) (by decide)).trans (by decide)

/-! ## C9: title and code resolution -/

/-- C9: a non-blank first `h1` text becomes the title; the code is the
whitespace-normalized `chCodeRe` match inside the title when one exists and
the full title otherwise; and on the fixtures the whole fallback chain and
the two spec instances come out as claimed. -/
theorem C9_title_and_code :
    (∀ doc n, findFirst doc (isTag ("h1")) = some n →
      goTrimSpace (rawText n) ≠ "" → (titleAndCode doc).1 = goTrimSpace (rawText n)) ∧
    (∀ doc m1, chCodeFind (titleAndCode doc).1 = some m1 →
      (titleAndCode doc).2 = goTrimSpace (reSpace m1)) ∧
    (∀ doc, chCodeFind (titleAndCode doc).1 = none →
      (titleAndCode doc).2 = (titleAndCode doc).1) ∧
    titleAndCode docTitleA = ("Chapter 12.3B — Arrival", "12.3B") ∧
    titleAndCode docTitleB = ("Prologue", "Prologue") ∧
    titleAndCode docTitleC = ("Side Story 2.5", "2.5") ∧
    titleAndCode docTitleD = ("Untitled Chapter", "Untitled Chapter") := by
  refine ⟨?_, ?_, ?_, by decide, by decide, by decide, by decide⟩
  · intro doc n hn ht
    simp only [titleAndCode, hn, if_neg ht]
  · intro doc m1 h
    simp only [titleAndCode] at h ⊢
    rw [h]
  · intro doc h
    simp only [titleAndCode] at h ⊢
    rw [h]

/-- Witness for C9: the `h1` conjunct applied at the first fixture. -/
theorem C9_title_and_code_witness :
    (titleAndCode docTitleA).1 =
      goTrimSpace (rawText (.elem ("h1") [] [.text ("Chapter 12.3B — Arrival")])) :=
  C9_title_and_code.1 docTitleA (.elem ("h1") [] [.text ("Chapter 12.3B — Arrival")])
    (by rfl) (by decide)

/-! ## C7: content-root selection is total -/

/-- Helper: every return path of `findContent` produces a (Go: non-nil)
selection. -/
theorem findContent_isSome (doc : HNode) (cands : List (HNode → Bool)) :
    (findContent doc cands).isSome := by
  unfold findContent
  cases h1 : firstCandidate doc cands with
  | some path => simp
  | none =>
    cases h2 : findPathIn doc genericFallbackPred with
    | some path => simp
    | none => simp

/-- C7: `findContent` never returns nothing — the first candidate match wins
regardless of length, with the generic and body fallbacks behind it — so the
"content node not found" branch of `ParseChapter` is unreachable. -/
theorem C7_content_selection_total :
    (∀ doc cands, (findContent doc cands).isSome) ∧
    (∀ doc cands path, firstCandidate doc cands = some path →
      findContent doc cands = some (some path)) ∧
    (∀ doc url cfg, parseChapter doc url cfg ≠ .error ("content node not found")) := by
  refine ⟨findContent_isSome, ?_, ?_⟩
  · intro doc cands path h
    unfold findContent
    rw [h]
  · intro doc url cfg
    unfold parseChapter
    obtain ⟨sel, hsel⟩ :=
      Option.isSome_iff_exists.mp (findContent_isSome doc cfg.SelectorCandidates)
    rw [hsel]
    dsimp only
    split
    · intro hc
      exact absurd (Except.error.inj hc) (by decide)
    · intro hc
      exact Except.noConfusion hc

/-- Witness for C7: the candidate-precedence conjunct at a concrete page. -/
theorem C7_content_selection_total_witness :
    findContent shortDoc [isTag ("p")] = some (some [0, 0]) :=
  C7_content_selection_total.2.1 shortDoc [isTag ("p")] [0, 0] (by rfl)

/-! ## C3: pagination precedence -/

/-- Phase 1 of `nextURL`: the non-empty href of the first
`link[rel*="next"]`. -/
def linkNextHref (doc : HNode) : Option String :=
  (findFirst doc linkRelNext).bind (fun l =>
    match anchorHref l with
    | some h => if h = "" then none else some h
    | none => none)

/-- Contribution of one anchor to the exact-text phase: its non-empty href
when its trimmed text equals a configured NextTexts entry. -/
def anchorContribution (nts : List String) (a : HNode) : Option String :=
  let t := goTrimSpace (rawText a)
  if nts.any (fun nt => t = nt) then
    match anchorHref a with
    | some href => if href = "" then none else some href
    | none => none
  else none

/-- Phase 2 of `nextURL`: the first anchor in document order contributing an
exact-text match with a non-empty href. -/
def exactTextHref (doc : HNode) (nts : List String) : Option String :=
  List.findSome? (anchorContribution nts) (findAll doc (isTag ("a")))

/-- Phase 3 of `nextURL`: the first anchor whose trimmed text contains
"next" case-insensitively, contributing its href only when non-empty. -/
def fuzzyNextHref (doc : HNode) : Option String :=
  ((findAll doc (isTag ("a"))).find? (fun a =>
    containsNextFold (goTrimSpace (rawText a)))).bind (fun a =>
    match anchorHref a with
    | some h => if h = "" then none else some h
    | none => none)

/-- Helper: the short-circuiting scan keeps an already found result. -/
theorem anchorScan_keep (nts : List String) (u : String) (l : List HNode) :
    l.foldl (anchorScanStep nts) (some u) = some u := by
  induction l with
  | nil => rfl
  | cons a l ih => exact ih

/-- Helper: the anchor fold inside `nextURL` equals the first-contribution
search of `exactTextHref`. -/
theorem anchorScan_eq (nts : List String) (l : List HNode) :
    l.foldl (anchorScanStep nts) none = List.findSome? (anchorContribution nts) l := by
  induction l with
  | nil => rfl
  | cons a l ih =>
    have hstep : anchorScanStep nts none a = anchorContribution nts a := rfl
    rw [List.foldl_cons, hstep, List.findSome?_cons]
    cases h : anchorContribution nts a with
    | some v => rw [anchorScan_keep]
    | none => exact ih

/-- C3: `nextURL` is exactly the first-match-wins composition of the three
phases — rel-next link, exact anchor text, fuzzy "next" anchor — and on the
fixture carrying both a `rel="next"` link and a "Next Chapter" anchor the
rel-next href wins. -/
theorem C3_pagination_precedence :
    (∀ doc cfg, nextURL doc cfg =
      (linkNextHref doc).orElse (fun _ =>
        (exactTextHref doc cfg.NextTexts).orElse (fun _ => fuzzyNextHref doc))) ∧
    nextURL docNext cfgNext = some ("/a") ∧
    exactTextHref docNext cfgNext.NextTexts = some ("/b") := by
  refine ⟨?_, by decide, by decide⟩
  intro doc cfg
  unfold nextURL
  dsimp only
  rw [anchorScan_eq cfg.NextTexts (findAll doc (isTag ("a")))]
  cases h1 : findFirst doc linkRelNext with
  | some l =>
    dsimp only
    cases h2 : anchorHref l with
    | some href =>
      dsimp only
      by_cases h3 : href = ""
      · rw [if_pos h3]
        rw [show linkNextHref doc = none by simp [linkNextHref, h1, h2, h3]]
        cases hq : List.findSome? (anchorContribution cfg.NextTexts)
            (findAll doc (isTag ("a"))) with
        | some u =>
          rw [show exactTextHref doc cfg.NextTexts = some u by
            simp [exactTextHref, hq]]
          rfl
        | none =>
          rw [show exactTextHref doc cfg.NextTexts = none by
            simp [exactTextHref, hq]]
          cases hf : List.find? (fun a => containsNextFold (goTrimSpace (rawText a)))
              (findAll doc (isTag ("a"))) <;>
            simp [fuzzyNextHref, hf, Option.orElse]
      · rw [if_neg h3]
        rw [show linkNextHref doc = some href by simp [linkNextHref, h1, h2, h3]]
        rfl
    | none =>
      rw [show linkNextHref doc = none by simp [linkNextHref, h1, h2]]
      cases hq : List.findSome? (anchorContribution cfg.NextTexts)
          (findAll doc (isTag ("a"))) with
      | some u =>
        rw [show exactTextHref doc cfg.NextTexts = some u by simp [exactTextHref, hq]]
        rfl
      | none =>
        rw [show exactTextHref doc cfg.NextTexts = none by simp [exactTextHref, hq]]
        cases hf : List.find? (fun a => containsNextFold (goTrimSpace (rawText a)))
            (findAll doc (isTag ("a"))) <;>
          simp [fuzzyNextHref, hf, Option.orElse]
  | none =>
    rw [show linkNextHref doc = none by simp [linkNextHref, h1]]
    cases hq : List.findSome? (anchorContribution cfg.NextTexts)
        (findAll doc (isTag ("a"))) with
    | some u =>
      rw [show exactTextHref doc cfg.NextTexts = some u by simp [exactTextHref, hq]]
      rfl
    | none =>
      rw [show exactTextHref doc cfg.NextTexts = none by simp [exactTextHref, hq]]
      cases hf : List.find? (fun a => containsNextFold (goTrimSpace (rawText a)))
          (findAll doc (isTag ("a"))) <;>
        simp [fuzzyNextHref, hf, Option.orElse]

/-! ## C2 and C10: crawl loop properties -/

/-- Helper: the loop never decreases the fetched-page counter. -/
theorem runLoopF_att_mono (w : CrawlWorld) (cfg : ParserConfig) (se : Bool) :
    ∀ fuel cur acc att, att ≤ (runLoopF w cfg se fuel cur acc att).2.2 := by
  intro fuel
  induction fuel with
  | zero =>
    intro cur acc att
    exact Nat.le_refl att
  | succ f ih =>
    intro cur acc att
    simp only [runLoopF]
    split
    · exact Nat.le_refl att
    · split
      · exact Nat.le_succ att
      · exact Nat.le_succ att
      · split
        · exact Nat.le_succ att
        · split
          · exact Nat.le_succ att
          · split
            · exact Nat.le_succ att
            · split
              · exact Nat.le_succ att
              · split
                · exact Nat.le_succ att
                · exact Nat.le_trans (Nat.le_succ att) (ih _ _ _)

/-- Helper: each loop iteration adds at most one chapter. -/
theorem runLoopF_len (w : CrawlWorld) (cfg : ParserConfig) (se : Bool) :
    ∀ fuel cur acc att,
      (runLoopF w cfg se fuel cur acc att).1.length ≤ acc.length + fuel := by
  intro fuel
  induction fuel with
  | zero =>
    intro cur acc att
    exact Nat.le_add_right _ 0
  | succ f ih =>
    intro cur acc att
    simp only [runLoopF]
    split
    · exact Nat.le_add_right _ _
    · split
      · simp
      · simp
      · split
        · simp
        · split
          · simp
          · split
            · simp only [List.length_append, List.length_cons, List.length_nil]
              omega
            · split
              · simp only [List.length_append, List.length_cons, List.length_nil]
                omega
              · split
                · simp only [List.length_append, List.length_cons, List.length_nil]
                  omega
                · calc (runLoopF w cfg se f _ (acc ++ [_]) (att + 1)).1.length
                      ≤ (acc ++ [_]).length + f := ih _ _ _
                    _ ≤ acc.length + (f + 1) := by
                        simp only [List.length_append, List.length_cons, List.length_nil]
                        omega

/-- Helper: whenever the loop reports an error, the chapter list is empty. -/
theorem runLoopF_err_nil (w : CrawlWorld) (cfg : ParserConfig) (se : Bool) :
    ∀ fuel cur acc att,
      ((runLoopF w cfg se fuel cur acc att).2.1).isSome →
        (runLoopF w cfg se fuel cur acc att).1 = [] := by
  intro fuel
  induction fuel with
  | zero =>
    intro cur acc att h
    simp [runLoopF] at h
  | succ f ih =>
    intro cur acc att
    simp only [runLoopF]
    split
    · intro h
      simp at h
    · split
      · intro _
        rfl
      · intro _
        rfl
      · split
        · intro _
          rfl
        · split
          · intro _
            rfl
          · split
            · intro h
              simp at h
            · split
              · intro h
                simp at h
              · split
                · intro h
                  simp at h
                · exact ih _ _ _

/-- C2: every page failure (fetch, HTML decode, parse — including a chapter
shorter than `MinTextLen` — or `Saver` failure) makes `Run` return an error
together with an empty chapter list, and the 10-character page with
`MinTextLen` 50 is a concrete instance: one fetch, an error, zero chapters. -/
theorem C2_run_atomic_on_error :
    (∀ w cfg opt start, ((runnerRun w cfg opt start).2.1).isSome →
      (runnerRun w cfg opt start).1 = []) ∧
    runnerRun shortWorld cfgShort { MaxPages := 10, SaveEach := false } ("u") =
      ([], some ("parse chapter u: chapter too short"), 1) := by
  refine ⟨?_, by decide⟩
  intro w cfg opt start
  exact runLoopF_err_nil w cfg opt.SaveEach _ start [] 0

/-- Witness for C2: the atomicity conjunct applied at the short-page run. -/
theorem C2_run_atomic_on_error_witness :
    (runnerRun shortWorld cfgShort { MaxPages := 10, SaveEach := false } ("u")).1 = [] :=
  C2_run_atomic_on_error.1 shortWorld cfgShort { MaxPages := 10, SaveEach := false }
    ("u") (by decide)

/-- C10 counterexample: with an empty start URL the loop body never runs, so
`Run` fetches zero pages even though the budget was raised to one — the
claim's "always attempts at least one page" is false at this input. -/
theorem C10_counterexample :
    (runnerRun failWorld cfgShort { MaxPages := 0, SaveEach := false } ("")).2.2 = 0 ∧
    ¬ (1 ≤ (runnerRun failWorld cfgShort { MaxPages := 0, SaveEach := false } ("")).2.2) := by
  exact ⟨rfl, by decide⟩

/-- C10 (amended): `NewRunner` floors the page budget at one (`max MaxPages
1`); `Run` fetches at least one page whenever the start URL is non-empty,
even for a zero or negative budget; and the returned chapter list never
exceeds `max(MaxPages, 1)` chapters. -/
theorem C10_page_budget_floor :
    (∀ m, newRunnerMaxPages m = max m 1) ∧
    (∀ w cfg opt start, start ≠ "" → 1 ≤ (runnerRun w cfg opt start).2.2) ∧
    (∀ w cfg opt start,
      (runnerRun w cfg opt start).1.length ≤ (max opt.MaxPages 1).toNat) := by
  refine ⟨?_, ?_, ?_⟩
  · intro m
    unfold newRunnerMaxPages
    split
    · omega
    · omega
  · intro w cfg opt start hs
    unfold runnerRun
    have h1 : 1 ≤ (newRunnerMaxPages opt.MaxPages).toNat := by
      unfold newRunnerMaxPages
      split
      · simp
      · omega
    obtain ⟨f, hf⟩ : ∃ f, (newRunnerMaxPages opt.MaxPages).toNat = f + 1 :=
      ⟨(newRunnerMaxPages opt.MaxPages).toNat - 1, by omega⟩
    rw [hf]
    simp only [runLoopF, if_neg hs]
    split
    · exact Nat.le_refl 1
    · exact Nat.le_refl 1
    · split
      · exact Nat.le_refl 1
      · split
        · exact Nat.le_refl 1
        · split
          · exact Nat.le_refl 1
          · split
            · exact Nat.le_refl 1
            · split
              · exact Nat.le_refl 1
              · exact runLoopF_att_mono w cfg opt.SaveEach f _ _ 1
  · intro w cfg opt start
    unfold runnerRun
    calc (runLoopF w cfg opt.SaveEach (newRunnerMaxPages opt.MaxPages).toNat
            start [] 0).1.length
        ≤ ([] : List Chapter).length + (newRunnerMaxPages opt.MaxPages).toNat :=
          runLoopF_len w cfg opt.SaveEach _ start [] 0
      _ = (newRunnerMaxPages opt.MaxPages).toNat := by simp
      _ = (max opt.MaxPages 1).toNat := by
          unfold newRunnerMaxPages
          split <;> omega

/-- Witness for C10: the at-least-one-page conjunct at a failing world. -/
theorem C10_page_budget_floor_witness :
    1 ≤ (runnerRun failWorld cfgShort { MaxPages := 0, SaveEach := false } ("u")).2.2 :=
  C10_page_budget_floor.2.1 failWorld cfgShort { MaxPages := 0, SaveEach := false }
    ("u") (by decide)

/-! ## C4: scene-break block replacement -/

/-- C4 counterexample: two adjacent scene-break paragraphs yield a single
marker — the second block's marker is de-duplicated away — so "every matching
block is replaced in the output sequence by exactly one marker" is false at
this input. -/
theorem C4_counterexample :
    paragraphsWithInline [sceneDoc] sceneCfg = ["<hr class=\"scene-break\"/>"] ∧
    paragraphsWithInline [sceneDoc] sceneCfg ≠
      ["<hr class=\"scene-break\"/>", "<hr class=\"scene-break\"/>"] :=
  ⟨by decide, by decide⟩

/-- C4 (amended): for styles with a non-empty rendering (hr and spacer; for
"none" the block is dropped with no marker), a block whose whitespace-collapsed
plain text matches a configured scene-break pattern is replaced by exactly one
marker of the corresponding rendering, discarding all its formatting — except
that a marker immediately following another marker in the assembled block
sequence is de-duplicated (only the first survives). -/
theorem C4_scene_break_replacement :
    (∀ cfg tag el blocks,
      isSceneBreakText (goTrimSpace (nodeText el)) cfg.SceneBreakPatterns = true →
      emitSceneBreak cfg.SceneBreakStyle ≠ "" →
      pushBlock cfg tag el blocks = blocks ++ [emitSceneBreak cfg.SceneBreakStyle]) ∧
    (∀ cfg tag el blocks,
      isSceneBreakText (goTrimSpace (nodeText el)) cfg.SceneBreakPatterns = true →
      emitSceneBreak cfg.SceneBreakStyle = "" →
      pushBlock cfg tag el blocks = blocks) ∧
    (∀ l m, isSceneBreakHTML m = true →
      dedupAdjacent (l ++ [m, m]) = dedupAdjacent (l ++ [m])) := by
  refine ⟨?_, ?_, ?_⟩
  · intro cfg tag el blocks h1 h2
    simp [pushBlock, h1, h2]
  · intro cfg tag el blocks h1 h2
    simp [pushBlock, h1, h2]
  · intro l m hm
    unfold dedupAdjacent
    rw [List.foldl_append, List.foldl_append]
    simp only [List.foldl_cons, List.foldl_nil]
    by_cases hc : (!(List.foldl (fun out b =>
        if !out.isEmpty && isSceneBreakHTML b && isSceneBreakHTML (out.getLastD "")
        then out else out ++ [b]) [] l).isEmpty && isSceneBreakHTML m &&
        isSceneBreakHTML ((List.foldl (fun out b =>
          if !out.isEmpty && isSceneBreakHTML b && isSceneBreakHTML (out.getLastD "")
          then out else out ++ [b]) [] l).getLastD "")) = true
    · rw [if_pos hc, if_pos hc]
    · rw [if_neg hc]
      have h2 : (!((List.foldl (fun out b =>
          if !out.isEmpty && isSceneBreakHTML b && isSceneBreakHTML (out.getLastD "")
          then out else out ++ [b]) [] l) ++ [m]).isEmpty && isSceneBreakHTML m &&
          isSceneBreakHTML (((List.foldl (fun out b =>
            if !out.isEmpty && isSceneBreakHTML b && isSceneBreakHTML (out.getLastD "")
            then out else out ++ [b]) [] l) ++ [m]).getLastD "")) = true := by
        simp [hm]
      rw [if_pos h2]

/-- Witness for C4: the marker-replacement conjunct at a concrete
scene-break paragraph. -/
theorem C4_scene_break_replacement_witness :
    pushBlock sceneCfg ("p") (.elem ("p") [] [.text ("* * *")]) [] =
      [] ++ [emitSceneBreak sceneCfg.SceneBreakStyle] :=
  C4_scene_break_replacement.1 sceneCfg ("p") (.elem ("p") [] [.text ("* * *")]) []
    (by decide) (by decide)

/-! ## C5: line-break-run collapse -/

/-- C5 counterexample: with style "none" the code returns the input
unchanged, so a run of three `<br/>` at threshold 3 is NOT "deleted
entirely" as the claim states — the run survives verbatim. -/
theorem C5_counterexample :
    replaceBRRuns ("<br/><br/><br/>") 3 ("none") = "<br/><br/><br/>" ∧
    replaceBRRuns ("<br/><br/><br/>") 3 ("none") ≠ "" :=
  ⟨rfl, by decide⟩

/-- Characters of `k` consecutive `<br/>` elements. -/
def brChars : Nat → List Char
  | 0 => []
  | k + 1 => ("<br/>").data ++ brChars k

/-- Admissibility of the text chunk following one run: no `<`, a
non-whitespace head, and empty only in last position. -/
def chunkOKb (last : Bool) (r : Nat × List Char) : Bool :=
  !r.2.contains '<' && (last || !r.2.isEmpty) &&
    (match r.2.head? with
     | some c => !isRe2Space c
     | none => true)

/-- Admissibility of a whole run list. -/
def runsOKb : List (Nat × List Char) → Bool
  | [] => true
  | [r] => chunkOKb true r
  | r :: rest => chunkOKb false r && runsOKb rest

/-- A string made of alternating `<br/>`-runs and text chunks. -/
def renderRuns (runs : List (Nat × List Char)) : List Char :=
  (runs.map (fun r => brChars r.1 ++ r.2)).flatten

/-- The same string after collapsing every run of at least `n` units to the
marker `sb`. -/
def collapsedRuns (n : Int) (sb : List Char) (runs : List (Nat × List Char)) :
    List Char :=
  (runs.map (fun r => (if n ≤ (r.1 : Int) then sb else brChars r.1) ++ r.2)).flatten

/-- Helper: no `<br>` unit starts at a character other than `<`. -/
theorem matchUnit_not_lt (c : Char) (cs : List Char) (h : c ≠ '<') :
    matchUnit (c :: cs) = none := by
  rcases cs with _ | ⟨c1, cs1⟩
  · rfl
  rcases cs1 with _ | ⟨c2, rest⟩
  · rfl
  · simp [matchUnit, h]

/-- Helper: `takeWhile` never lengthens a list. -/
theorem takeWhile_len_le (p : Char → Bool) : ∀ l : List Char,
    (l.takeWhile p).length ≤ l.length := by
  intro l
  induction l with
  | nil => simp
  | cons c cs ih =>
    by_cases h : p c
    · rw [List.takeWhile_cons_of_pos h]
      simpa using ih
    · rw [List.takeWhile_cons_of_neg h]
      simp

/-- Helper: a matched `<br>` unit consumes between 1 and all characters. -/
theorem matchUnit_bounds (cs : List Char) (k : Nat) (h : matchUnit cs = some k) :
    1 ≤ k ∧ k ≤ cs.length := by
  rcases cs with _ | ⟨c0, _ | ⟨c1, _ | ⟨c2, rest⟩⟩⟩
  · simp [matchUnit] at h
  · simp [matchUnit] at h
  · simp [matchUnit] at h
  by_cases hg : (c0 = '<' && c1.toLower = 'b' && c2.toLower = 'r') = true
  · have hs1 : (rest.takeWhile isRe2Space).length ≤ rest.length :=
      takeWhile_len_le _ _
    have hdl : (rest.drop (rest.takeWhile isRe2Space).length).length =
        rest.length - (rest.takeWhile isRe2Space).length := List.length_drop _ _
    simp only [matchUnit] at h
    rw [if_pos hg] at h
    split at h
    · next r3 heq =>
      have hr3 : rest.length - (rest.takeWhile isRe2Space).length = r3.length + 2 := by
        rw [← hdl, heq]
        simp
      have hs2 : (r3.takeWhile isRe2Space).length ≤ r3.length :=
        takeWhile_len_le _ _
      have hk : 3 + (rest.takeWhile isRe2Space).length + 2 +
          (r3.takeWhile isRe2Space).length = k := by
        exact Option.some.inj h
      simp only [List.length_cons]
      omega
    · next r3 heq =>
      have hr3 : rest.length - (rest.takeWhile isRe2Space).length = r3.length + 1 := by
        rw [← hdl, heq]
        simp
      have hs2 : (r3.takeWhile isRe2Space).length ≤ r3.length :=
        takeWhile_len_le _ _
      have hk : 3 + (rest.takeWhile isRe2Space).length + 1 +
          (r3.takeWhile isRe2Space).length = k := by
        exact Option.some.inj h
      simp only [List.length_cons]
      omega
    · exact absurd h (by simp)
  · simp only [matchUnit] at h
    rw [if_neg hg] at h
    exact absurd h (by simp)

/-- Helper: one literal `<br/>` followed by a non-whitespace-headed tail is
one unit of exactly five characters. -/
theorem matchUnit_br (tl : List Char) (hs : tl.takeWhile isRe2Space = []) :
    matchUnit (("<br/>").data ++ tl) = some 5 := by
  show matchUnit ('<' :: 'b' :: 'r' :: '/' :: '>' :: tl) = some 5
  simp only [matchUnit]
  rw [if_pos (by decide)]
  have h1 : ('/' :: '>' :: tl).takeWhile isRe2Space = [] := by
    rw [List.takeWhile_cons_of_neg]
    decide
  rw [h1]
  simp [hs]

/-- Length of a `<br/>`-run. -/
theorem brChars_length (k : Nat) : (brChars k).length = 5 * k := by
  induction k with
  | zero => rfl
  | succ k ih =>
    simp [brChars, ih]
    omega

/-- Helper: the run counter consumes at most the whole string. -/
theorem brRunLenF_le (f : Nat) : ∀ cs, (brRunLenF f cs).2 ≤ cs.length := by
  induction f with
  | zero =>
    intro cs
    exact Nat.zero_le _
  | succ f ih =>
    intro cs
    cases hm : matchUnit cs with
    | none => simp [brRunLenF, hm]
    | some k =>
      have hb := matchUnit_bounds cs k hm
      have hd := ih (cs.drop k)
      simp only [brRunLenF, hm, List.length_drop] at hd ⊢
      omega

/-- Helper: the run counter is fuel-insensitive once the fuel covers the
string. -/
theorem brRunLenF_fuel (f : Nat) : ∀ g cs, cs.length ≤ f → cs.length ≤ g →
    brRunLenF f cs = brRunLenF g cs := by
  induction f with
  | zero =>
    intro g cs hf hg
    have : cs = [] := List.length_eq_zero.mp (Nat.le_zero.mp hf)
    subst this
    cases g with
    | zero => rfl
    | succ g => rfl
  | succ f ih =>
    intro g cs hf hg
    cases g with
    | zero =>
      have : cs = [] := List.length_eq_zero.mp (Nat.le_zero.mp hg)
      subst this
      rfl
    | succ g =>
      cases hm : matchUnit cs with
      | none => simp [brRunLenF, hm]
      | some k =>
        have hb := matchUnit_bounds cs k hm
        simp only [brRunLenF, hm]
        rw [ih g (cs.drop k) (by simp [List.length_drop]; omega)
          (by simp [List.length_drop]; omega)]

/-- Helper: no unit at the head means no run. -/
theorem brRunLen_matchNone (cs : List Char) (hm : matchUnit cs = none) :
    brRunLen cs = (0, 0) := by
  unfold brRunLen
  cases hl : cs.length with
  | zero => rfl
  | succ m => simp [brRunLenF, hm]

/-- Helper: a literal run of `k` units before an unmatchable, non-whitespace
tail counts exactly `k` units of five characters each. -/
theorem brRunLen_runs (k : Nat) (rest : List Char)
    (hm : matchUnit rest = none) (hs : rest.takeWhile isRe2Space = []) :
    brRunLen (brChars k ++ rest) = (k, 5 * k) := by
  induction k with
  | zero => simpa [brChars] using brRunLen_matchNone rest hm
  | succ k ih =>
    have htw : (brChars k ++ rest).takeWhile isRe2Space = [] := by
      cases k with
      | zero => simpa [brChars] using hs
      | succ k2 =>
        rw [show brChars (k2 + 1) ++ rest =
          '<' :: ('b' :: 'r' :: '/' :: '>' :: (brChars k2 ++ rest)) from rfl]
        rw [List.takeWhile_cons_of_neg]
        decide
    have hmb : matchUnit (brChars (k + 1) ++ rest) = some 5 := by
      have : brChars (k + 1) ++ rest = ("<br/>").data ++ (brChars k ++ rest) := by
        simp [brChars]
      rw [this]
      exact matchUnit_br (brChars k ++ rest) htw
    unfold brRunLen
    have hlen : (brChars (k + 1) ++ rest).length = 5 * (k + 1) + rest.length := by
      simp [brChars_length]
    obtain ⟨f, hf⟩ : ∃ f, (brChars (k + 1) ++ rest).length = f + 1 :=
      ⟨(brChars (k + 1) ++ rest).length - 1, by omega⟩
    rw [hf]
    simp only [brRunLenF, hmb]
    have hdrop : (brChars (k + 1) ++ rest).drop 5 = brChars k ++ rest := by
      have : brChars (k + 1) ++ rest = ("<br/>").data ++ (brChars k ++ rest) := by
        simp [brChars]
      rw [this, show (5 : Nat) = (("<br/>").data).length from rfl, List.drop_left]
    rw [hdrop]
    have hlen2 : (brChars k ++ rest).length = 5 * k + rest.length := by
      simp [brChars_length]
    have hf2 : 5 * (k + 1) + rest.length = f + 1 := by
      rw [← hlen]
      exact hf
    have hfuel : brRunLenF f (brChars k ++ rest) = brRunLen (brChars k ++ rest) := by
      unfold brRunLen
      apply brRunLenF_fuel
      · rw [hlen2]
        omega
      · exact Nat.le_refl _
    rw [hfuel, ih]
    dsimp only
    simp only [Prod.mk.injEq]
    exact ⟨trivial, by omega⟩

/-- Helper: a positive run consumes at least one and at most all
characters. -/
theorem brRunLen_pos (cs : List Char) (h : 0 < (brRunLen cs).1) :
    1 ≤ (brRunLen cs).2 ∧ (brRunLen cs).2 ≤ cs.length := by
  refine ⟨?_, brRunLenF_le _ cs⟩
  unfold brRunLen at h ⊢
  cases hl : cs.length with
  | zero =>
    rw [hl] at h
    simp [brRunLenF] at h
  | succ m =>
    rw [hl] at h
    cases hm : matchUnit cs with
    | none => simp [brRunLenF, hm] at h
    | some k =>
      have hb := matchUnit_bounds cs k hm
      simp only [brRunLenF, hm]
      omega

/-- Helper: the replacement scanner is fuel-insensitive once the fuel
strictly covers the string. -/
theorem replaceGoF_fuel (n : Int) (sb : List Char) (f : Nat) : ∀ g cs,
    cs.length < f → cs.length < g →
      replaceGoF n sb f cs = replaceGoF n sb g cs := by
  induction f with
  | zero =>
    intro g cs hf _
    exact absurd hf (Nat.not_lt_zero _)
  | succ f ih =>
    intro g cs hf hg
    cases g with
    | zero => exact absurd hg (Nat.not_lt_zero _)
    | succ g =>
      cases cs with
      | nil => rfl
      | cons c cs =>
        have hd : ((c :: cs).drop (brRunLen (c :: cs)).2).length =
            (c :: cs).length - (brRunLen (c :: cs)).2 := List.length_drop _ _
        by_cases h1 : 0 < (brRunLen (c :: cs)).1
        · have hp := brRunLen_pos (c :: cs) h1
          by_cases h2 : n ≤ ((brRunLen (c :: cs)).1 : Int)
          · simp only [replaceGoF, if_pos h1, if_pos h2]
            congr 1
            apply ih
            · omega
            · omega
          · simp only [replaceGoF, if_pos h1, if_neg h2]
            congr 1
            apply ih
            · omega
            · omega
        · simp only [replaceGoF, if_neg h1]
          congr 1
          apply ih
          · simp only [List.length_cons] at hf
            omega
          · simp only [List.length_cons] at hg
            omega

/-- Helper: a `<`-free prefix passes through the replacement scanner
verbatim. -/
theorem replaceGoF_text (n : Int) (sb : List Char) : ∀ p rest f,
    p.contains '<' = false → (p ++ rest).length < f →
      replaceGoF n sb f (p ++ rest) =
        p ++ replaceGoF n sb (rest.length + 1) rest := by
  intro p
  induction p with
  | nil =>
    intro rest f h hf
    simp only [List.nil_append]
    exact replaceGoF_fuel n sb f (rest.length + 1) rest (by simpa using hf)
      (Nat.lt_succ_self _)
  | cons c p ih =>
    intro rest f hc hf
    have hsplit : c ≠ '<' ∧ p.contains '<' = false := by
      simp only [List.contains_cons, Bool.or_eq_false_iff, beq_eq_false_iff_ne,
        ne_eq] at hc
      exact ⟨fun he => hc.1 he.symm, hc.2⟩
    have hm := matchUnit_not_lt c (p ++ rest) hsplit.1
    have hbr := brRunLen_matchNone (c :: (p ++ rest)) hm
    cases f with
    | zero => exact absurd hf (Nat.not_lt_zero _)
    | succ f =>
      rw [List.cons_append]
      simp only [replaceGoF, hbr]
      rw [if_neg (by simp)]
      rw [List.cons_append]
      congr 1
      apply ih rest f hsplit.2
      simp only [List.length_append, List.length_cons] at hf ⊢
      omega

/-- Helper: unpack the chunk admissibility flags. -/
theorem chunkOKb_facts (last : Bool) (k : Nat) (t : List Char)
    (h : chunkOKb last (k, t) = true) :
    t.contains '<' = false ∧ (last = true ∨ t ≠ []) ∧
      t.takeWhile isRe2Space = [] := by
  simp only [chunkOKb, Bool.and_eq_true] at h
  obtain ⟨⟨h1, h2⟩, h3⟩ := h
  refine ⟨by simpa using h1, ?_, ?_⟩
  · cases last with
    | true => exact Or.inl rfl
    | false =>
      right
      simp only [Bool.false_or] at h2
      intro he
      rw [he] at h2
      simp at h2
  · cases t with
    | nil => rfl
    | cons c t2 =>
      simp only [List.head?_cons, Bool.not_eq_true'] at h3
      exact List.takeWhile_cons_of_neg (by simp [h3])

/-- Helper: unpack a run list's admissibility at the head. -/
theorem runsOKb_cons (r : Nat × List Char) (rest : List (Nat × List Char))
    (h : runsOKb (r :: rest) = true) :
    chunkOKb rest.isEmpty r = true ∧ runsOKb rest = true := by
  cases rest with
  | nil => exact ⟨h, rfl⟩
  | cons r2 rest2 =>
    simp only [runsOKb, Bool.and_eq_true] at h
    exact ⟨h.1, by simp [runsOKb, h.2]⟩

/-- Helper: the replacement scanner collapses each admissible run
independently: runs of at least `n` units become `sb`, shorter runs are kept
verbatim, and the text chunks pass through. -/
theorem replaceGo_runs (n : Int) (sb : List Char) (hn : 2 ≤ n) : ∀ runs f,
    runsOKb runs = true → (renderRuns runs).length < f →
      replaceGoF n sb f (renderRuns runs) = collapsedRuns n sb runs := by
  intro runs
  induction runs with
  | nil =>
    intro f _ hf
    cases f with
    | zero => exact absurd hf (Nat.not_lt_zero _)
    | succ f => rfl
  | cons r rest ih =>
    obtain ⟨k, t⟩ := r
    intro f hok hf
    obtain ⟨hok1, hok2⟩ := runsOKb_cons (k, t) rest hok
    obtain ⟨hc1, hc2, hc3⟩ := chunkOKb_facts _ k t hok1
    have htail : matchUnit (t ++ renderRuns rest) = none ∧
        (t ++ renderRuns rest).takeWhile isRe2Space = [] := by
      cases t with
      | nil =>
        have hre : rest = [] := by
          rcases hc2 with h | h
          · exact List.isEmpty_iff.mp h
          · exact absurd rfl h
        subst hre
        exact ⟨rfl, rfl⟩
      | cons c t2 =>
        have hcne : c ≠ '<' := by
          simp only [List.contains_cons, Bool.or_eq_false_iff,
            beq_eq_false_iff_ne, ne_eq] at hc1
          exact fun he => hc1.1 he.symm
        have hchd : isRe2Space c = false := by
          by_cases hsp : isRe2Space c
          · rw [List.takeWhile_cons_of_pos hsp] at hc3
            simp at hc3
          · simpa using hsp
        constructor
        · rw [List.cons_append]
          exact matchUnit_not_lt c _ hcne
        · rw [List.cons_append]
          exact List.takeWhile_cons_of_neg (by simp [hchd])
    have hrender : renderRuns ((k, t) :: rest) =
        brChars k ++ (t ++ renderRuns rest) := by
      simp [renderRuns]
    have hcoll : collapsedRuns n sb ((k, t) :: rest) =
        (if n ≤ (k : Int) then sb else brChars k) ++ (t ++ collapsedRuns n sb rest) := by
      simp [collapsedRuns]
    rw [hrender] at hf ⊢
    rw [hcoll]
    cases k with
    | zero =>
      have hn0 : ¬ (n ≤ ((0 : Nat) : Int)) := by
        push_cast
        omega
      rw [if_neg hn0]
      simp only [brChars, List.nil_append] at hf ⊢
      rw [replaceGoF_text n sb t (renderRuns rest) f hc1 hf]
      congr 1
      exact ih ((renderRuns rest).length + 1) hok2 (Nat.lt_succ_self _)
    | succ k2 =>
      have hbr : brRunLen (brChars (k2 + 1) ++ (t ++ renderRuns rest)) =
          (k2 + 1, 5 * (k2 + 1)) := brRunLen_runs (k2 + 1) _ htail.1 htail.2
      have hlen : (brChars (k2 + 1) ++ (t ++ renderRuns rest)).length =
          5 * (k2 + 1) + (t ++ renderRuns rest).length := by
        simp [brChars_length]
      obtain ⟨f2, hf2⟩ : ∃ f2, f = f2 + 1 := ⟨f - 1, by omega⟩
      subst hf2
      rw [show brChars (k2 + 1) ++ (t ++ renderRuns rest) =
        '<' :: ('b' :: 'r' :: '/' :: '>' :: (brChars k2 ++ (t ++ renderRuns rest)))
        from rfl]
      simp only [replaceGoF]
      rw [show ('<' :: ('b' :: 'r' :: '/' :: '>' ::
        (brChars k2 ++ (t ++ renderRuns rest)))) =
        brChars (k2 + 1) ++ (t ++ renderRuns rest) from rfl]
      rw [hbr]
      dsimp only
      rw [if_pos (by omega : 0 < k2 + 1)]
      have hdrop : (brChars (k2 + 1) ++ (t ++ renderRuns rest)).drop (5 * (k2 + 1)) =
          t ++ renderRuns rest := by
        rw [← brChars_length (k2 + 1), List.drop_left]
      have htfuel : (t ++ renderRuns rest).length < f2 := by
        simp only [List.length_append] at hlen hf ⊢
        omega
      by_cases h2 : n ≤ ((k2 + 1 : Nat) : Int)
      · rw [if_pos h2, hdrop]
        rw [replaceGoF_text n sb t (renderRuns rest) f2 hc1 htfuel]
        rw [ih ((renderRuns rest).length + 1) hok2 (Nat.lt_succ_self _)]
        rw [if_pos h2]
      · rw [if_neg h2, hdrop]
        have htake : (brChars (k2 + 1) ++ (t ++ renderRuns rest)).take (5 * (k2 + 1)) =
            brChars (k2 + 1) := by
          rw [← brChars_length (k2 + 1), List.take_left]
        rw [htake]
        rw [replaceGoF_text n sb t (renderRuns rest) f2 hc1 htfuel]
        rw [ih ((renderRuns rest).length + 1) hok2 (Nat.lt_succ_self _)]
        rw [if_neg h2]

/-- C5 (amended): for thresholds of at least 2 and styles other than "none",
every admissible run of `ConsecutiveBRThreshold` or more consecutive `<br/>`
elements collapses to exactly one marker of the style's rendering ("hr" the
rule marker, "spacer" the empty-paragraph marker) while shorter runs — in
particular a run of exactly `ConsecutiveBRThreshold - 1` — are left
untouched; style "none" and thresholds of at most 1 leave the whole string
unchanged (runs are not deleted). -/
theorem C5_line_break_collapse :
    (∀ first runs n style, 2 ≤ n → lowerStr style ≠ "none" →
      first.contains '<' = false → runsOKb runs = true →
      replaceBRRuns (String.mk (first ++ renderRuns runs)) n style =
        String.mk (first ++ collapsedRuns n (emitSceneBreak style).data runs)) ∧
    (∀ s n, replaceBRRuns s n ("none") = s) ∧
    (∀ s style, replaceBRRuns s 1 style = s) ∧
    emitSceneBreak ("hr") = "<hr class=\"scene-break\"/>" ∧
    emitSceneBreak ("spacer") = "<p class=\"spacer\"></p>" := by
  refine ⟨?_, ?_, ?_, by decide, by decide⟩
  · intro first runs n style hn hst hf hok
    unfold replaceBRRuns
    rw [if_neg (by
      simp only [Bool.or_eq_true, decide_eq_true_eq]
      push_neg
      exact ⟨by omega, hst⟩)]
    congr 1
    rw [show (String.mk (first ++ renderRuns runs)).data = first ++ renderRuns runs
      from rfl]
    rw [replaceGoF_text n (emitSceneBreak style).data first (renderRuns runs) _ hf
      (Nat.lt_succ_self _)]
    congr 1
    exact replaceGo_runs n (emitSceneBreak style).data hn runs
      ((renderRuns runs).length + 1) hok (Nat.lt_succ_self _)
  · intro s n
    unfold replaceBRRuns
    rw [if_pos (by simp [lowerStr, lowerChars])]
  · intro s style
    unfold replaceBRRuns
    rw [if_pos (by simp)]

/-- Witness for C5: the collapse conjunct applied at a single 3-unit run
between text chunks, at threshold 3 with style "hr". -/
theorem C5_line_break_collapse_witness :
    replaceBRRuns (String.mk (("x").data ++ renderRuns [(3, ("y").data)])) 3 ("hr") =
      String.mk (("x").data ++
        collapsedRuns 3 (emitSceneBreak ("hr")).data [(3, ("y").data)]) :=
  C5_line_break_collapse.1 ("x").data [(3, ("y").data)] 3 ("hr") (by decide)
    (by decide) (by decide) (by decide)

/-! ## C1: whitelist closure

The invariant is `wfStr`: the tag scanner ends outside a tag and every tag
body it collects is closed, `<`-free and whitelisted.  The kit below
establishes `wfStr` for everything `inlineHTML` emits and shows every later
pipeline stage (`replaceBRRuns`, `splitOnSceneBreak`, trimming, block
wrapping, joining) preserves it; the claim follows because every tag name of
a `wfStr` string is whitelisted. -/

/-- Helper: `contains` distributes over append. -/
theorem contains_append_eq (a b : List Char) (x : Char) :
    (a ++ b).contains x = (a.contains x || b.contains x) := by
  induction a with
  | nil => simp
  | cons c a ih =>
    simp only [List.cons_append, List.contains_cons, ih, Bool.or_assoc]

/-- Helper: running the scanner from accumulated bodies only prepends them. -/
theorem scan_shift (cs : List Char) : ∀ bs cur,
    cs.foldl scanStep ⟨bs, cur⟩ =
      ⟨bs ++ (cs.foldl scanStep ⟨[], cur⟩).bodies, (cs.foldl scanStep ⟨[], cur⟩).cur⟩ := by
  induction cs with
  | nil =>
    intro bs cur
    simp
  | cons c cs ih =>
    intro bs cur
    have hstep : ∀ bs2, scanStep ⟨bs2, cur⟩ c =
        ⟨bs2 ++ (scanStep ⟨[], cur⟩ c).bodies, (scanStep ⟨[], cur⟩ c).cur⟩ := by
      intro bs2
      cases cur with
      | none =>
        by_cases h : c = '<' <;> simp [scanStep, h]
      | some b =>
        by_cases h : c = '>' <;> simp [scanStep, h]
    rcases hstx : scanStep ⟨[], cur⟩ c with ⟨bs1, cur1⟩
    have h1 : scanStep ⟨bs, cur⟩ c = ⟨bs ++ bs1, cur1⟩ := by
      rw [hstep bs, hstx]
    rw [List.foldl_cons, List.foldl_cons, h1, hstx]
    rw [ih (bs ++ bs1) cur1, ih bs1 cur1]
    simp [List.append_assoc]

/-- Helper: scanning `a ++ b` when `a` ends outside a tag concatenates the
collected bodies. -/
theorem scan_append_closed (a b : List Char) (ha : (scanBodies a).cur = none) :
    scanBodies (a ++ b) =
      ⟨(scanBodies a).bodies ++ (scanBodies b).bodies, (scanBodies b).cur⟩ := by
  unfold scanBodies at ha ⊢
  rw [List.foldl_append]
  rcases hsa : a.foldl scanStep ⟨[], none⟩ with ⟨bsa, cura⟩
  rw [hsa] at ha
  dsimp at ha
  subst ha
  rw [scan_shift b bsa none]

/-- Helper: `<`-free text leaves the outside-a-tag scanner state unchanged. -/
theorem scan_text_go (a : List Char) (h : a.contains '<' = false) : ∀ bs,
    a.foldl scanStep ⟨bs, none⟩ = ⟨bs, none⟩ := by
  induction a with
  | nil =>
    intro bs
    rfl
  | cons c a ih =>
    intro bs
    simp only [List.contains_cons, Bool.or_eq_false_iff, beq_eq_false_iff_ne,
      ne_eq] at h
    have hc : c ≠ '<' := fun he => h.1 he.symm
    rw [List.foldl_cons, show scanStep ⟨bs, none⟩ c = ⟨bs, none⟩ from by
      simp [scanStep, hc]]
    exact ih h.2 bs

/-- Helper: scanning `<`-free text before `b` is the same as scanning `b`. -/
theorem scan_unText (a b : List Char) (h : a.contains '<' = false) :
    scanBodies (a ++ b) = scanBodies b := by
  unfold scanBodies
  rw [List.foldl_append, scan_text_go a h]

/-- Helper: a `>`-free body accumulates verbatim inside a tag. -/
theorem scan_body_go (body : List Char) (h : body.contains '>' = false) : ∀ bs b,
    body.foldl scanStep ⟨bs, some b⟩ = ⟨bs, some (b ++ body)⟩ := by
  induction body with
  | nil =>
    intro bs b
    simp
  | cons c body ih =>
    intro bs b
    simp only [List.contains_cons, Bool.or_eq_false_iff, beq_eq_false_iff_ne,
      ne_eq] at h
    have hc : c ≠ '>' := fun he => h.1 he.symm
    rw [List.foldl_cons, show scanStep ⟨bs, some b⟩ c = ⟨bs, some (b ++ [c])⟩ from by
      simp [scanStep, hc]]
    rw [ih h.2 bs (b ++ [c])]
    simp

/-- Helper: scanning one complete tag collects exactly its body. -/
theorem scan_tag (body rest : List Char) (h : body.contains '>' = false) :
    scanBodies ('<' :: body ++ '>' :: rest) =
      ⟨body :: (scanBodies rest).bodies, (scanBodies rest).cur⟩ := by
  unfold scanBodies
  rw [show ('<' :: body) ++ ('>' :: rest) = '<' :: (body ++ '>' :: rest) from rfl]
  rw [List.foldl_cons, show scanStep ⟨[], none⟩ '<' = ⟨[], some []⟩ from rfl,
    List.foldl_append, scan_body_go body h [] [], List.foldl_cons,
    show scanStep ⟨[], some ([] ++ body)⟩ '>' = ⟨[[] ++ body], none⟩ from by
      simp [scanStep]]
  rw [scan_shift rest [[] ++ body] none]
  simp

/-- Helper: a `contains`-false list excludes the element. -/
theorem contains_false_not_mem (l : List Char) (x : Char)
    (h : l.contains x = false) : ¬ x ∈ l := by
  induction l with
  | nil => simp
  | cons a l ih =>
    simp only [List.contains_cons, Bool.or_eq_false_iff, beq_eq_false_iff_ne,
      ne_eq] at h
    intro hm
    rcases List.mem_cons.mp hm with he | hm2
    · exact h.1 he
    · exact ih h.2 hm2

/-- Helper: well-formedness concatenates. -/
theorem wf_append (a b : List Char) (ha : wfStr a = true) (hb : wfStr b = true) :
    wfStr (a ++ b) = true := by
  unfold wfStr at *
  simp only [Bool.and_eq_true, Option.isNone_iff_eq_none] at ha hb
  rw [scan_append_closed a b ha.1]
  simp only [List.all_append, Bool.and_eq_true, Option.isNone_iff_eq_none]
  exact ⟨hb.1, ha.2, hb.2⟩

/-- Helper: `<`-free text is well-formed. -/
theorem wf_text (a : List Char) (h : a.contains '<' = false) : wfStr a = true := by
  unfold wfStr scanBodies
  rw [scan_text_go a h]
  rfl

/-- Helper: dropping a `<`-free prefix preserves well-formedness in both
directions. -/
theorem wf_unText (a b : List Char) (h : a.contains '<' = false) :
    wfStr (a ++ b) = wfStr b := by
  unfold wfStr
  rw [scan_unText a b h]

/-- Helper: a whitelisted closed tag followed by a well-formed rest is
well-formed. -/
theorem wf_tag (body rest : List Char) (h : body.contains '>' = false)
    (hg : goodBody body = true) (hr : wfStr rest = true) :
    wfStr ('<' :: body ++ '>' :: rest) = true := by
  unfold wfStr at *
  rw [scan_tag body rest h]
  simp only [Bool.and_eq_true, Option.isNone_iff_eq_none, List.all_cons] at *
  exact ⟨hr.1, hg, hr.2⟩

/-- Helper: splitting a string at a closed boundary splits well-formedness. -/
theorem wf_split_closed (a b : List Char) (ha : (scanBodies a).cur = none) :
    wfStr (a ++ b) = ((scanBodies a).bodies.all goodBody && wfStr b) := by
  unfold wfStr
  rw [scan_append_closed a b ha]
  simp only [List.all_append]
  cases hcur : (scanBodies b).cur <;> simp [Bool.and_assoc]

/-- Helper: every tag name in a well-formed string is whitelisted. -/
theorem tags_whitelist (s : String) (h : wfStr s.data = true) :
    ∀ t ∈ tagsIn s, t ∈ whitelist := by
  intro t ht
  unfold tagsIn at ht
  unfold wfStr at h
  simp only [Bool.and_eq_true] at h
  obtain ⟨b, hb, hbt⟩ := List.mem_map.mp ht
  have := List.all_eq_true.mp h.2 b hb
  unfold goodBody at this
  simp only [Bool.and_eq_true] at this
  rw [← hbt]
  exact List.mem_of_elem_eq_true this.2

/-- Helper: an open tag that closes leaves behind a decomposable string. -/
theorem scan_inside (cs : List Char) : ∀ b,
    (cs.foldl scanStep ⟨[], some b⟩).cur = none →
      ∃ body rest, cs = body ++ '>' :: rest ∧ body.contains '>' = false ∧
        cs.foldl scanStep ⟨[], some b⟩ =
          ⟨(b ++ body) :: (scanBodies rest).bodies, (scanBodies rest).cur⟩ := by
  induction cs with
  | nil =>
    intro b h
    simp at h
  | cons c cs ih =>
    intro b h
    by_cases hc : c = '>'
    · subst hc
      refine ⟨[], cs, ?_, ?_, ?_⟩
      · simp
      · simp
      · rw [List.foldl_cons, show scanStep ⟨[], some b⟩ '>' = ⟨[b], none⟩ from by
          simp [scanStep]]
        rw [scan_shift cs [b] none]
        simp [scanBodies]
    · rw [List.foldl_cons, show scanStep ⟨[], some b⟩ c = ⟨[], some (b ++ [c])⟩ from by
        simp [scanStep, hc]] at h ⊢
      obtain ⟨body, rest, hcs, hbody, hfold⟩ := ih (b ++ [c]) h
      refine ⟨c :: body, rest, ?_, ?_, ?_⟩
      · simp [hcs]
      · simp only [List.contains_cons, Bool.or_eq_false_iff, beq_eq_false_iff_ne,
          ne_eq]
        exact ⟨fun he => hc he.symm, hbody⟩
      · rw [hfold]
        simp

/-- Helper: one unfolding of `escapeChars`. -/
theorem escapeChars_cons (c : Char) (cs : List Char) :
    escapeChars (c :: cs) = escChar c ++ escapeChars cs := by
  simp [escapeChars]

/-- Helper: escaped text contains no `<`. -/
theorem escape_noLt (cs : List Char) : (escapeChars cs).contains '<' = false := by
  induction cs with
  | nil => rfl
  | cons c cs ih =>
    rw [escapeChars_cons, contains_append_eq, ih, Bool.or_false]
    unfold escChar
    split_ifs with h1 h2 h3 h4 h5
    · decide
    · decide
    · decide
    · decide
    · decide
    · simp only [List.contains_cons, List.contains_nil, Bool.or_false,
        beq_eq_false_iff_ne, ne_eq]
      exact fun he => h3 he.symm

/-- Helper: escaped text contains no `>`. -/
theorem escape_noGt (cs : List Char) : (escapeChars cs).contains '>' = false := by
  induction cs with
  | nil => rfl
  | cons c cs ih =>
    rw [escapeChars_cons, contains_append_eq, ih, Bool.or_false]
    unfold escChar
    split_ifs with h1 h2 h3 h4 h5
    · decide
    · decide
    · decide
    · decide
    · decide
    · simp only [List.contains_cons, List.contains_nil, Bool.or_false,
        beq_eq_false_iff_ne, ne_eq]
      exact fun he => h4 he.symm

/-- Helper: a well-formed string starting at `<` begins with a complete
whitelisted tag. -/
theorem wf_destruct (cs : List Char) (h : wfStr ('<' :: cs) = true) :
    ∃ body rest, cs = body ++ '>' :: rest ∧ body.contains '>' = false ∧
      goodBody body = true ∧ wfStr rest = true := by
  unfold wfStr at h
  simp only [Bool.and_eq_true, Option.isNone_iff_eq_none] at h
  have h0 : scanBodies ('<' :: cs) = cs.foldl scanStep ⟨[], some []⟩ := by
    unfold scanBodies
    rw [List.foldl_cons]
    rfl
  rw [h0] at h
  obtain ⟨body, rest, hcs, hbody, hfold⟩ := scan_inside cs [] h.1
  rw [hfold] at h
  simp only [List.all_cons, Bool.and_eq_true, List.nil_append] at h
  exact ⟨body, rest, hcs, hbody, h.2.1, by
    unfold wfStr
    simp [h.1, h.2.2]⟩

/-- Helper: an anchor rendering with `<`-free and `>`-free escaped href and a
well-formed body is well-formed. -/
theorem wf_anchor (E L : List Char) (hE1 : E.contains '<' = false)
    (hE2 : E.contains '>' = false) (hL : wfStr L = true) :
    wfStr (("<a href=\"").data ++ E ++ ("\">").data ++ L ++ ("</a>").data) = true := by
  have hsh : ("<a href=\"").data ++ E ++ ("\">").data ++ L ++ ("</a>").data
      = '<' :: (("a href=\"").data ++ E ++ ['"']) ++ '>' :: (L ++ ("</a>").data) := by
    have hA : ("<a href=\"").data = '<' :: ("a href=\"").data := rfl
    have hB : ("\">").data = ['"'] ++ '>' :: ([] : List Char) := rfl
    rw [hA, hB]
    simp [List.append_assoc]
  rw [hsh]
  apply wf_tag
  · rw [contains_append_eq, contains_append_eq, hE2]
    decide
  · simp only [goodBody]
    rw [show tagNameOf (("a href=\"").data ++ E ++ ['"']) = "a" from rfl]
    rw [contains_append_eq, contains_append_eq, hE1]
    decide
  · exact wf_append _ _ hL (by decide)

mutual
/-- Helper: the inline rendering of any node is a well-formed whitelisted
string. -/
theorem wf_inline : ∀ n : HNode, wfStr (inlineChars n) = true
  | .text s => wf_text _ (escape_noLt s.data)
  | .comment _ => rfl
  | .elem name attrs cs => by
    simp only [inlineChars]
    split_ifs with h1 h2 h3 h4 h5
    · exact wf_append _ _ (wf_append _ _ (by decide) (wf_inlineList cs)) (by decide)
    · exact wf_append _ _ (wf_append _ _ (by decide) (wf_inlineList cs)) (by decide)
    · exact wf_append _ _ (wf_append _ _ (by decide) (wf_inlineList cs)) (by decide)
    · decide
    · exact wf_anchor _ _ (escape_noLt _) (escape_noGt _) (wf_inlineList cs)
    · exact wf_inlineList cs
/-- Helper: the inline rendering of a child list is well-formed. -/
theorem wf_inlineList : ∀ l : List HNode, wfStr (inlineList l) = true
  | [] => rfl
  | n :: ns => wf_append _ _ (wf_inline n) (wf_inlineList ns)
end

/-- Helper: a list of RE2-whitespace characters cannot contain a
non-whitespace character. -/
theorem all_space_no (l : List Char) (hl : ∀ c ∈ l, isRe2Space c = true) (x : Char)
    (hx : isRe2Space x = false) : l.contains x = false := by
  cases hc : l.contains x with
  | false => rfl
  | true =>
    have hm : x ∈ l := List.mem_of_elem_eq_true hc
    rw [hl x hm] at hx
    exact absurd hx (by decide)

/-- Helper: the scanner stays put on a non-`<` head outside a tag. -/
theorem scan_cons_unLt (c : Char) (cs : List Char) (h : c ≠ '<') :
    scanBodies (c :: cs) = scanBodies cs := by
  unfold scanBodies
  rw [List.foldl_cons, show scanStep ⟨[], none⟩ c = ⟨[], none⟩ from by
    simp [scanStep, h]]

/-- Helper: well-formedness ignores a non-`<` head. -/
theorem wfStr_cons_unLt (c : Char) (cs : List Char) (h : c ≠ '<') :
    wfStr (c :: cs) = wfStr cs := by
  unfold wfStr
  rw [scan_cons_unLt c cs h]

/-- Helper: the span consumed by one `<br>` unit leaves the scanner outside a
tag. -/
theorem matchUnit_take_closed (cs : List Char) (k : Nat) (h : matchUnit cs = some k) :
    (scanBodies (cs.take k)).cur = none := by
  rcases cs with _ | ⟨c0, _ | ⟨c1, _ | ⟨c2, rest⟩⟩⟩
  · simp [matchUnit] at h
  · simp [matchUnit] at h
  · simp [matchUnit] at h
  by_cases hg : (c0 = '<' && c1.toLower = 'b' && c2.toLower = 'r') = true
  · simp only [Bool.and_eq_true, decide_eq_true_eq] at hg
    obtain ⟨⟨h0, h1⟩, h2⟩ := hg
    subst h0
    have h1g : c1 ≠ '>' := by
      intro he
      rw [he] at h1
      exact absurd h1 (by decide)
    have h2g : c2 ≠ '>' := by
      intro he
      rw [he] at h2
      exact absurd h2 (by decide)
    have hspmem : ∀ c ∈ rest.takeWhile isRe2Space, isRe2Space c = true :=
      fun c hm => List.mem_takeWhile_imp hm
    have hsp : rest.takeWhile isRe2Space =
        rest.take (rest.takeWhile isRe2Space).length :=
      List.prefix_iff_eq_take.mp (List.takeWhile_prefix _)
    simp only [matchUnit] at h
    rw [if_pos (by simp [h1, h2])] at h
    split at h
    · next r3 heq =>
      have hk := Option.some.inj h
      have hsp2mem : ∀ c ∈ r3.takeWhile isRe2Space, isRe2Space c = true :=
        fun c hm => List.mem_takeWhile_imp hm
      have hsp2 : r3.takeWhile isRe2Space =
          r3.take (r3.takeWhile isRe2Space).length :=
        List.prefix_iff_eq_take.mp (List.takeWhile_prefix _)
      have htake : ('<' :: c1 :: c2 :: rest).take k =
          '<' :: c1 :: c2 :: (rest.takeWhile isRe2Space ++
            '/' :: '>' :: r3.takeWhile isRe2Space) := by
        rw [← hk]
        rw [show 3 + (rest.takeWhile isRe2Space).length + 2 +
            (r3.takeWhile isRe2Space).length =
          ((rest.takeWhile isRe2Space).length + (2 +
            (r3.takeWhile isRe2Space).length)) + 1 + 1 + 1 from by omega]
        simp only [List.take_succ_cons]
        rw [List.take_add rest]
        rw [← hsp, heq]
        rw [show 2 + (r3.takeWhile isRe2Space).length =
          (r3.takeWhile isRe2Space).length + 1 + 1 from by omega]
        simp only [List.take_succ_cons]
        rw [← hsp2]
      rw [htake]
      rw [show ('<' :: c1 :: c2 :: (rest.takeWhile isRe2Space ++
            '/' :: '>' :: r3.takeWhile isRe2Space) : List Char) =
          '<' :: (c1 :: c2 :: (rest.takeWhile isRe2Space ++ ['/'])) ++
            '>' :: r3.takeWhile isRe2Space from by simp]
      rw [scan_tag _ _ (by
        rw [List.contains_cons, List.contains_cons, contains_append_eq]
        simp only [Bool.or_eq_false_iff, beq_eq_false_iff_ne, ne_eq]
        exact ⟨fun he => h1g he.symm, fun he => h2g he.symm,
          all_space_no _ hspmem '>' (by decide), by decide⟩)]
      show (scanBodies (r3.takeWhile isRe2Space)).cur = none
      unfold scanBodies
      rw [scan_text_go _ (all_space_no _ hsp2mem '<' (by decide))]
    · next r3 heq =>
      have hk := Option.some.inj h
      have hsp2mem : ∀ c ∈ r3.takeWhile isRe2Space, isRe2Space c = true :=
        fun c hm => List.mem_takeWhile_imp hm
      have hsp2 : r3.takeWhile isRe2Space =
          r3.take (r3.takeWhile isRe2Space).length :=
        List.prefix_iff_eq_take.mp (List.takeWhile_prefix _)
      have htake : ('<' :: c1 :: c2 :: rest).take k =
          '<' :: c1 :: c2 :: (rest.takeWhile isRe2Space ++
            '>' :: r3.takeWhile isRe2Space) := by
        rw [← hk]
        rw [show 3 + (rest.takeWhile isRe2Space).length + 1 +
            (r3.takeWhile isRe2Space).length =
          ((rest.takeWhile isRe2Space).length + (1 +
            (r3.takeWhile isRe2Space).length)) + 1 + 1 + 1 from by omega]
        simp only [List.take_succ_cons]
        rw [List.take_add rest]
        rw [← hsp, heq]
        rw [show 1 + (r3.takeWhile isRe2Space).length =
          (r3.takeWhile isRe2Space).length + 1 from by omega]
        simp only [List.take_succ_cons]
        rw [← hsp2]
      rw [htake]
      rw [show ('<' :: c1 :: c2 :: (rest.takeWhile isRe2Space ++
            '>' :: r3.takeWhile isRe2Space) : List Char) =
          '<' :: (c1 :: c2 :: rest.takeWhile isRe2Space) ++
            '>' :: r3.takeWhile isRe2Space from by simp]
      rw [scan_tag _ _ (by
        rw [List.contains_cons, List.contains_cons]
        simp only [Bool.or_eq_false_iff, beq_eq_false_iff_ne, ne_eq]
        exact ⟨fun he => h1g he.symm, fun he => h2g he.symm,
          all_space_no _ hspmem '>' (by decide)⟩)]
      show (scanBodies (r3.takeWhile isRe2Space)).cur = none
      unfold scanBodies
      rw [scan_text_go _ (all_space_no _ hsp2mem '<' (by decide))]
    · exact absurd h (by simp)
  · simp only [matchUnit] at h
    rw [if_neg hg] at h
    exact absurd h (by simp)

/-- Helper: the span consumed by a run of `<br>` units leaves the scanner
outside a tag. -/
theorem brRunLenF_take_closed : ∀ (f : Nat) (cs : List Char),
    (scanBodies (cs.take (brRunLenF f cs).2)).cur = none := by
  intro f
  induction f with
  | zero =>
    intro cs
    rfl
  | succ f ih =>
    intro cs
    cases hm : matchUnit cs with
    | none => simp [brRunLenF, hm, scanBodies]
    | some k =>
      simp only [brRunLenF, hm]
      rw [List.take_add cs]
      rw [(scan_append_closed _ _ (matchUnit_take_closed cs k hm) :
        scanBodies (cs.take k ++ ((cs.drop k).take (brRunLenF f (cs.drop k)).2)) = _)]
      exact ih (cs.drop k)

/-- Helper: the characters of a maximal `<br>` run end outside a tag. -/
theorem brRun_take_closed (cs : List Char) :
    (scanBodies (cs.take (brRunLen cs).2)).cur = none :=
  brRunLenF_take_closed cs.length cs

/-- Helper: the `<br>`-run replacement preserves whitelisted
well-formedness. -/
theorem wf_replaceGo (n : Int) (sb : List Char) (hsb : wfStr sb = true) :
    ∀ N cs f, cs.length ≤ N → cs.length < f → wfStr cs = true →
      wfStr (replaceGoF n sb f cs) = true := by
  intro N
  induction N with
  | zero =>
    intro cs f hN _ hw
    have : cs = [] := List.length_eq_zero.mp (Nat.le_zero.mp hN)
    subst this
    cases f with
    | zero => exact hw
    | succ f => exact hw
  | succ N ih =>
    intro cs f hN hf hw
    cases f with
    | zero => exact absurd hf (Nat.not_lt_zero _)
    | succ f =>
      cases cs with
      | nil => exact hw
      | cons c cs =>
        have hlen : (c :: cs).length = cs.length + 1 := List.length_cons c cs
        by_cases h1 : 0 < (brRunLen (c :: cs)).1
        · have hp := brRunLen_pos (c :: cs) h1
          have hclosed := brRun_take_closed (c :: cs)
          have hsplit := wf_split_closed ((c :: cs).take (brRunLen (c :: cs)).2)
            ((c :: cs).drop (brRunLen (c :: cs)).2) hclosed
          rw [List.take_append_drop, hw] at hsplit
          have hparts := (Bool.and_eq_true _ _).mp hsplit.symm
          have hwdrop : wfStr ((c :: cs).drop (brRunLen (c :: cs)).2) = true :=
            hparts.2
          have hwtake : wfStr ((c :: cs).take (brRunLen (c :: cs)).2) = true := by
            unfold wfStr
            rw [hclosed]
            simp [hparts.1]
          have hdl : ((c :: cs).drop (brRunLen (c :: cs)).2).length =
              (c :: cs).length - (brRunLen (c :: cs)).2 := List.length_drop _ _
          by_cases h2 : n ≤ ((brRunLen (c :: cs)).1 : Int)
          · simp only [replaceGoF, if_pos h1, if_pos h2]
            exact wf_append _ _ hsb
              (ih ((c :: cs).drop (brRunLen (c :: cs)).2) f (by omega) (by omega)
                hwdrop)
          · simp only [replaceGoF, if_pos h1, if_neg h2]
            exact wf_append _ _ hwtake
              (ih ((c :: cs).drop (brRunLen (c :: cs)).2) f (by omega) (by omega)
                hwdrop)
        · by_cases hc : c = '<'
          · subst hc
            obtain ⟨body, rest, hcs, hbgt, hgood, hwrest⟩ := wf_destruct cs hw
            subst hcs
            simp only [replaceGoF, if_neg h1]
            have hblt : body.contains '<' = false := by
              have hg2 := hgood
              simp only [goodBody, Bool.and_eq_true, Bool.not_eq_true'] at hg2
              exact hg2.1
            have hptext : (body ++ ['>']).contains '<' = false := by
              rw [contains_append_eq, hblt]
              decide
            have hre : replaceGoF n sb f (body ++ '>' :: rest)
                = (body ++ ['>']) ++ replaceGoF n sb (rest.length + 1) rest := by
              rw [show body ++ '>' :: rest = (body ++ ['>']) ++ rest from by simp]
              apply replaceGoF_text n sb (body ++ ['>']) rest f hptext
              simp only [List.length_append, List.length_cons,
                List.length_nil] at hf ⊢
              omega
            rw [hre]
            rw [show ('<' :: ((body ++ ['>']) ++
                  replaceGoF n sb (rest.length + 1) rest) : List Char)
                = '<' :: body ++ '>' :: replaceGoF n sb (rest.length + 1) rest
                from by simp]
            apply wf_tag _ _ hbgt hgood
            apply ih rest (rest.length + 1) ?_ (Nat.lt_succ_self _) hwrest
            simp only [List.length_cons, List.length_append,
              List.length_cons] at hN
            omega
          · simp only [replaceGoF, if_neg h1]
            have hwcs : wfStr cs = true := by
              rw [← wfStr_cons_unLt c cs hc]
              exact hw
            rw [wfStr_cons_unLt c _ hc]
            exact ih cs f (by omega) (by omega) hwcs

/-- Helper: `replaceBRRuns` preserves whitelisted well-formedness. -/
theorem wf_replaceBRRuns (s : String) (n : Int) (style : String)
    (hw : wfStr s.data = true) :
    wfStr (replaceBRRuns s n style).data = true := by
  unfold replaceBRRuns
  split_ifs with h
  · exact hw
  · have hsb : wfStr (emitSceneBreak style).data = true := by
      unfold emitSceneBreak
      split_ifs <;> decide
    exact wf_replaceGo n _ hsb s.data.length s.data (s.data.length + 1)
      (Nat.le_refl _) (Nat.lt_succ_self _) hw

/-- Helper: a `<`-headed pattern cannot match at a non-`<` head. -/
theorem headMatches_unLt (p : List Char) (c : Char) (cs : List Char) (hc : c ≠ '<') :
    headMatches ('<' :: p) (c :: cs) = false := by
  have h : ('<' = c) = False := by
    simp only [eq_iff_iff, iff_false]
    exact fun he => hc he.symm
  simp [headMatches, h]

/-- Helper: both scene-break markers start with `<`, so none matches at a
non-`<` head. -/
theorem matchMarker_unLt (c : Char) (cs : List Char) (hc : c ≠ '<') :
    matchMarker (c :: cs) = none := by
  have h1 : headMatches (("<hr class=\"scene-break\"").data) (c :: cs) = false :=
    headMatches_unLt _ c cs hc
  have h2 : headMatches (("<p class=\"spacer\"></p>").data) (c :: cs) = false :=
    headMatches_unLt _ c cs hc
  simp [matchMarker, h1, h2]

/-- Helper: a matched head pattern is the take of its length. -/
theorem headMatches_take : ∀ (p cs : List Char), headMatches p cs = true →
    cs.take p.length = p ∧ p.length ≤ cs.length
  | [], _, _ => ⟨rfl, Nat.zero_le _⟩
  | _ :: _, [], h => absurd h (by simp [headMatches])
  | p :: ps, c :: cs, h => by
    simp only [headMatches, Bool.and_eq_true, decide_eq_true_eq] at h
    obtain ⟨he, hm⟩ := h
    obtain ⟨ht, hl⟩ := headMatches_take ps cs hm
    subst he
    exact ⟨by simp [List.take_succ_cons, ht], by simpa using Nat.succ_le_succ hl⟩

/-- Helper: a matched marker consumes between 1 and all characters. -/
theorem matchMarker_bounds (cs : List Char) (k : Nat) (h : matchMarker cs = some k) :
    1 ≤ k ∧ k ≤ cs.length := by
  have h23 : (['<', 'h', 'r', ' ', 'c', 'l', 'a', 's', 's', '=', '\"', 's', 'c',
      'e', 'n', 'e', '-', 'b', 'r', 'e', 'a', 'k', '\"'] : List Char).length = 23 :=
    rfl
  have h22 : (['<', 'p', ' ', 'c', 'l', 'a', 's', 's', '=', '\"', 's', 'p', 'a',
      'c', 'e', 'r', '\"', '>', '<', '/', 'p', '>'] : List Char).length = 22 :=
    rfl
  unfold matchMarker at h
  simp only [] at h
  split at h
  · next h1 =>
    split at h
    · next t heq =>
      have hk := Option.some.inj h
      obtain ⟨-, hlen⟩ := headMatches_take _ cs h1
      have hs1 := takeWhile_len_le isRe2Space (cs.drop (['<', 'h', 'r', ' ',
        'c', 'l', 'a', 's', 's', '=', '\"', 's', 'c', 'e', 'n', 'e', '-', 'b',
        'r', 'e', 'a', 'k', '\"'] : List Char).length)
      have hdl : (cs.drop (['<', 'h', 'r', ' ', 'c', 'l', 'a', 's', 's', '=',
          '\"', 's', 'c', 'e', 'n', 'e', '-', 'b', 'r', 'e', 'a', 'k',
          '\"'] : List Char).length).length =
          cs.length - (['<', 'h', 'r', ' ', 'c', 'l', 'a', 's', 's', '=', '\"',
          's', 'c', 'e', 'n', 'e', '-', 'b', 'r', 'e', 'a', 'k',
          '\"'] : List Char).length :=
        List.length_drop _ _
      have hdl2 : ((cs.drop (['<', 'h', 'r', ' ', 'c', 'l', 'a', 's', 's', '=',
          '\"', 's', 'c', 'e', 'n', 'e', '-', 'b', 'r', 'e', 'a', 'k',
          '\"'] : List Char).length).drop
          ((cs.drop (['<', 'h', 'r', ' ', 'c', 'l', 'a', 's', 's', '=', '\"',
            's', 'c', 'e', 'n', 'e', '-', 'b', 'r', 'e', 'a', 'k',
            '\"'] : List Char).length).takeWhile isRe2Space).length).length =
          (cs.drop (['<', 'h', 'r', ' ', 'c', 'l', 'a', 's', 's', '=', '\"',
          's', 'c', 'e', 'n', 'e', '-', 'b', 'r', 'e', 'a', 'k',
          '\"'] : List Char).length).length -
          ((cs.drop (['<', 'h', 'r', ' ', 'c', 'l', 'a', 's', 's', '=', '\"',
          's', 'c', 'e', 'n', 'e', '-', 'b', 'r', 'e', 'a', 'k',
          '\"'] : List Char).length).takeWhile isRe2Space).length :=
        List.length_drop _ _
      have h5 : ((cs.drop (['<', 'h', 'r', ' ', 'c', 'l', 'a', 's', 's', '=',
          '\"', 's', 'c', 'e', 'n', 'e', '-', 'b', 'r', 'e', 'a', 'k',
          '\"'] : List Char).length).drop
          ((cs.drop (['<', 'h', 'r', ' ', 'c', 'l', 'a', 's', 's', '=', '\"',
            's', 'c', 'e', 'n', 'e', '-', 'b', 'r', 'e', 'a', 'k',
            '\"'] : List Char).length).takeWhile isRe2Space).length).length =
          t.length + 2 := by
        rw [heq]
        simp
      omega
    · next hne =>
      split at h
      · next h2 =>
        have hk := Option.some.inj h
        obtain ⟨-, hlen2⟩ := headMatches_take _ cs h2
        omega
      · exact absurd h (by simp)
  · next h1 =>
    split at h
    · next h3 =>
      have hk := Option.some.inj h
      obtain ⟨-, hlen2⟩ := headMatches_take _ cs h3
      omega
    · exact absurd h (by simp)

/-- Helper: the span consumed by a matched marker leaves the scanner outside a
tag. -/
theorem matchMarker_take_closed (cs : List Char) (k : Nat)
    (h : matchMarker cs = some k) : (scanBodies (cs.take k)).cur = none := by
  unfold matchMarker at h
  simp only [] at h
  split at h
  · next h1 =>
    split at h
    · next t heq =>
      have hk := Option.some.inj h
      obtain ⟨htk, -⟩ := headMatches_take _ cs h1
      have hsp : (cs.drop (['<', 'h', 'r', ' ', 'c', 'l', 'a', 's', 's', '=',
          '\"', 's', 'c', 'e', 'n', 'e', '-', 'b', 'r', 'e', 'a', 'k',
          '\"'] : List Char).length).takeWhile isRe2Space =
          (cs.drop (['<', 'h', 'r', ' ', 'c', 'l', 'a', 's', 's', '=', '\"',
          's', 'c', 'e', 'n', 'e', '-', 'b', 'r', 'e', 'a', 'k',
          '\"'] : List Char).length).take
          ((cs.drop (['<', 'h', 'r', ' ', 'c', 'l', 'a', 's', 's', '=', '\"',
            's', 'c', 'e', 'n', 'e', '-', 'b', 'r', 'e', 'a', 'k',
            '\"'] : List Char).length).takeWhile isRe2Space).length :=
        List.prefix_iff_eq_take.mp (List.takeWhile_prefix _)
      have hspmem : ∀ c ∈ (cs.drop (['<', 'h', 'r', ' ', 'c', 'l', 'a', 's',
          's', '=', '\"', 's', 'c', 'e', 'n', 'e', '-', 'b', 'r', 'e', 'a',
          'k', '\"'] : List Char).length).takeWhile isRe2Space,
          isRe2Space c = true :=
        fun c hm => List.mem_takeWhile_imp hm
      have htake : cs.take k = (['<', 'h', 'r', ' ', 'c', 'l', 'a', 's', 's',
          '=', '\"', 's', 'c', 'e', 'n', 'e', '-', 'b', 'r', 'e', 'a', 'k',
          '\"'] : List Char) ++
          ((cs.drop (['<', 'h', 'r', ' ', 'c', 'l', 'a', 's', 's', '=', '\"',
            's', 'c', 'e', 'n', 'e', '-', 'b', 'r', 'e', 'a', 'k',
            '\"'] : List Char).length).takeWhile isRe2Space ++ ['/', '>']) := by
        rw [← hk, Nat.add_assoc, List.take_add cs, htk, List.take_add]
        rw [← hsp, heq]
        rfl
      rw [htake]
      rw [show (['<', 'h', 'r', ' ', 'c', 'l', 'a', 's', 's', '=', '\"', 's',
          'c', 'e', 'n', 'e', '-', 'b', 'r', 'e', 'a', 'k',
          '\"'] : List Char) ++
          ((cs.drop (['<', 'h', 'r', ' ', 'c', 'l', 'a', 's', 's', '=', '\"',
            's', 'c', 'e', 'n', 'e', '-', 'b', 'r', 'e', 'a', 'k',
            '\"'] : List Char).length).takeWhile isRe2Space ++ ['/', '>']) =
          '<' :: ((['h', 'r', ' ', 'c', 'l', 'a', 's', 's', '=', '\"', 's',
            'c', 'e', 'n', 'e', '-', 'b', 'r', 'e', 'a', 'k',
            '\"'] : List Char) ++
            ((cs.drop (['<', 'h', 'r', ' ', 'c', 'l', 'a', 's', 's', '=', '\"',
              's', 'c', 'e', 'n', 'e', '-', 'b', 'r', 'e', 'a', 'k',
              '\"'] : List Char).length).takeWhile isRe2Space ++ ['/'])) ++
            '>' :: [] from by simp]
      rw [scan_tag _ _ (by
        rw [contains_append_eq, contains_append_eq]
        rw [all_space_no _ hspmem '>' (by decide)]
        decide)]
      rfl
    · next hne =>
      split at h
      · next h2 =>
        have hk := Option.some.inj h
        obtain ⟨htk2, -⟩ := headMatches_take _ cs h2
        rw [← hk, htk2]
        decide
      · exact absurd h (by simp)
  · next h1 =>
    split at h
    · next h3 =>
      have hk := Option.some.inj h
      obtain ⟨htk2, -⟩ := headMatches_take _ cs h3
      rw [← hk, htk2]
      decide
    · exact absurd h (by simp)

/-- Helper: the splitter is fuel-insensitive once the fuel strictly covers the
string. -/
theorem splitGoF_fuel : ∀ (f g : Nat) (acc cs : List Char),
    cs.length < f → cs.length < g → splitGoF f acc cs = splitGoF g acc cs := by
  intro f
  induction f with
  | zero =>
    intro g acc cs hf _
    exact absurd hf (Nat.not_lt_zero _)
  | succ f ih =>
    intro g acc cs hf hg
    cases g with
    | zero => exact absurd hg (Nat.not_lt_zero _)
    | succ g =>
      cases cs with
      | nil => rfl
      | cons c cs =>
        cases hm : matchMarker (c :: cs) with
        | some k =>
          have hb := matchMarker_bounds (c :: cs) k hm
          have hd : ((c :: cs).drop k).length = (c :: cs).length - k :=
            List.length_drop _ _
          simp only [splitGoF, hm]
          rw [ih g [] ((c :: cs).drop k)
            (by simp only [List.length_drop, List.length_cons] at hf ⊢; omega)
            (by simp only [List.length_drop, List.length_cons] at hg ⊢; omega)]
        | none =>
          simp only [splitGoF, hm]
          exact ih g (acc ++ [c]) cs
            (by simp only [List.length_cons] at hf; omega)
            (by simp only [List.length_cons] at hg; omega)

/-- Helper: a `<`-free span passes through the splitter into the
accumulator. -/
theorem splitGo_text : ∀ (p : List Char), p.contains '<' = false →
    ∀ (acc rest : List Char) (f : Nat), (p ++ rest).length < f →
    splitGoF f acc (p ++ rest) = splitGoF (rest.length + 1) (acc ++ p) rest := by
  intro p
  induction p with
  | nil =>
    intro _ acc rest f hf
    simp only [List.nil_append, List.append_nil]
    exact splitGoF_fuel f (rest.length + 1) acc rest (by simpa using hf)
      (Nat.lt_succ_self _)
  | cons d p ih =>
    intro hc acc rest f hf
    have hsplit : d ≠ '<' ∧ p.contains '<' = false := by
      simp only [List.contains_cons, Bool.or_eq_false_iff, beq_eq_false_iff_ne,
        ne_eq] at hc
      exact ⟨fun he => hc.1 he.symm, hc.2⟩
    cases f with
    | zero => exact absurd hf (Nat.not_lt_zero _)
    | succ f =>
      rw [List.cons_append]
      simp only [splitGoF, matchMarker_unLt d _ hsplit.1]
      rw [ih hsplit.2 (acc ++ [d]) rest f
        (by simp only [List.length_append, List.length_cons] at hf ⊢; omega)]
      rw [List.append_assoc]
      rfl

/-- Helper: every part emitted by the splitter from a well-formed string with
a closed well-formed accumulator is well-formed. -/
theorem wf_splitGo : ∀ (N : Nat) (cs acc : List Char) (f : Nat),
    cs.length ≤ N → cs.length < f → (scanBodies acc).cur = none →
    wfStr (acc ++ cs) = true →
    ∀ s ∈ splitGoF f acc cs, wfStr s.data = true := by
  intro N
  induction N with
  | zero =>
    intro cs acc f hN hf hacl hw s hs
    have : cs = [] := List.length_eq_zero.mp (Nat.le_zero.mp hN)
    subst this
    cases f with
    | zero => exact absurd hf (Nat.not_lt_zero _)
    | succ f =>
      simp only [splitGoF] at hs
      split_ifs at hs with hacc
      · exact absurd hs (List.not_mem_nil s)
      · rw [List.mem_singleton.mp hs]
        rw [List.append_nil] at hw
        exact hw
  | succ N ih =>
    intro cs acc f hN hf hacl hw s hs
    cases f with
    | zero => exact absurd hf (Nat.not_lt_zero _)
    | succ f =>
      cases cs with
      | nil =>
        simp only [splitGoF] at hs
        split_ifs at hs with hacc
        · exact absurd hs (List.not_mem_nil s)
        · rw [List.mem_singleton.mp hs]
          rw [List.append_nil] at hw
          exact hw
      | cons c cs =>
        have hsp := wf_split_closed acc (c :: cs) hacl
        rw [hw] at hsp
        have hparts := (Bool.and_eq_true _ _).mp hsp.symm
        have hwcs : wfStr (c :: cs) = true := hparts.2
        have hwacc : wfStr acc = true := by
          unfold wfStr
          rw [hacl]
          simp [hparts.1]
        cases hm : matchMarker (c :: cs) with
        | some k =>
          have hb := matchMarker_bounds (c :: cs) k hm
          have hcl2 := matchMarker_take_closed (c :: cs) k hm
          have hsp2 := wf_split_closed ((c :: cs).take k) ((c :: cs).drop k) hcl2
          rw [List.take_append_drop, hwcs] at hsp2
          have hparts2 := (Bool.and_eq_true _ _).mp hsp2.symm
          have hwdrop : wfStr ((c :: cs).drop k) = true := hparts2.2
          have hwtake : wfStr ((c :: cs).take k) = true := by
            unfold wfStr
            rw [hcl2]
            simp [hparts2.1]
          have hd : ((c :: cs).drop k).length = (c :: cs).length - k :=
            List.length_drop _ _
          simp only [splitGoF, hm] at hs
          rcases List.mem_append.mp hs with h | h
          · split_ifs at h with hacc
            · exact absurd h (List.not_mem_nil s)
            · rw [List.mem_singleton.mp h]
              exact hwacc
          · rcases List.mem_cons.mp h with h | h
            · rw [h]
              exact hwtake
            · refine ih ((c :: cs).drop k) [] f ?_ ?_ rfl (by simpa using hwdrop) s h
              · simp only [List.length_drop, List.length_cons] at hN ⊢
                omega
              · simp only [List.length_drop, List.length_cons] at hf ⊢
                omega
        | none =>
          by_cases hc : c = '<'
          · subst hc
            obtain ⟨body, rest, hcs, hbgt, hgood, hwrest⟩ := wf_destruct cs hwcs
            subst hcs
            have hblt : body.contains '<' = false := by
              have hg2 := hgood
              simp only [goodBody, Bool.and_eq_true, Bool.not_eq_true'] at hg2
              exact hg2.1
            have hptext : (body ++ ['>']).contains '<' = false := by
              rw [contains_append_eq, hblt]
              decide
            simp only [splitGoF, hm] at hs
            rw [show body ++ '>' :: rest = (body ++ ['>']) ++ rest from by simp]
              at hs
            rw [splitGo_text (body ++ ['>']) hptext (acc ++ ['<']) rest f (by
              simp only [List.length_append, List.length_cons, List.length_nil]
                at hf ⊢
              omega)] at hs
            have hacl2 : (scanBodies ((acc ++ ['<']) ++ (body ++ ['>']))).cur
                = none := by
              rw [List.append_assoc]
              rw [show ['<'] ++ (body ++ ['>']) = '<' :: body ++ '>' :: [] from
                by simp]
              rw [(scan_append_closed acc _ hacl :
                scanBodies (acc ++ ('<' :: body ++ '>' :: [])) = _)]
              rw [scan_tag _ _ hbgt]
              rfl
            refine ih rest ((acc ++ ['<']) ++ (body ++ ['>']))
              (rest.length + 1) ?_ (Nat.lt_succ_self _) hacl2 ?_ s hs
            · simp only [List.length_cons, List.length_append] at hN
              omega
            · rw [show ((acc ++ ['<']) ++ (body ++ ['>'])) ++ rest =
                acc ++ '<' :: (body ++ '>' :: rest) from by simp]
              exact hw
          · simp only [splitGoF, hm] at hs
            have hacl2 : (scanBodies (acc ++ [c])).cur = none := by
              rw [(scan_append_closed acc [c] hacl :
                scanBodies (acc ++ [c]) = _)]
              rw [scan_cons_unLt c [] hc]
              rfl
            refine ih cs (acc ++ [c]) f ?_ ?_ hacl2 ?_ s hs
            · simp only [List.length_cons] at hN
              omega
            · simp only [List.length_cons] at hf
              omega
            · rw [show (acc ++ [c]) ++ cs = acc ++ c :: cs from by simp]
              exact hw

/-- Helper: every part of `splitOnSceneBreak` on a well-formed string is
well-formed. -/
theorem wf_splitOnSceneBreak (s : String) (hw : wfStr s.data = true) :
    ∀ t ∈ splitOnSceneBreak s, wfStr t.data = true := by
  intro t ht
  exact wf_splitGo s.data.length s.data [] (s.data.length + 1) (Nat.le_refl _)
    (Nat.lt_succ_self _) rfl (by simpa using hw) t ht

/-- Helper: `String.data` distributes over append. -/
theorem data_append (a b : String) : (a ++ b).data = a.data ++ b.data := rfl

/-- Helper: a list of Go-whitespace characters cannot contain a
non-whitespace character. -/
theorem all_gospace_no (l : List Char) (hl : ∀ c ∈ l, isGoSpace c = true)
    (x : Char) (hx : isGoSpace x = false) : l.contains x = false := by
  cases hc : l.contains x with
  | false => rfl
  | true =>
    have hm : x ∈ l := List.mem_of_elem_eq_true hc
    rw [hl x hm] at hx
    exact absurd hx (by decide)

/-- Helper: a well-formed string stays well-formed after dropping a tag-free
suffix. -/
theorem wf_of_append_text (a sfx : List Char) (_hlt : sfx.contains '<' = false)
    (h2 : sfx.contains '>' = false) (hw : wfStr (a ++ sfx) = true) :
    wfStr a = true := by
  rcases hc2 : (scanBodies a).cur with _ | b
  · have hsp := wf_split_closed a sfx hc2
    rw [hw] at hsp
    have hparts := (Bool.and_eq_true _ _).mp hsp.symm
    unfold wfStr
    rw [hc2]
    simp [hparts.1]
  · exfalso
    unfold wfStr at hw
    simp only [Bool.and_eq_true, Option.isNone_iff_eq_none] at hw
    have hss : scanBodies (a ++ sfx) =
        ⟨(scanBodies a).bodies, some (b ++ sfx)⟩ := by
      unfold scanBodies at hc2 ⊢
      rw [List.foldl_append]
      rcases hsa : a.foldl scanStep ⟨[], none⟩ with ⟨bs2, cur2⟩
      rw [hsa] at hc2
      dsimp at hc2
      subst hc2
      rw [scan_body_go sfx h2 bs2 b]
    rw [hss] at hw
    exact absurd hw.1 (by simp)

/-- Helper: right-trimming removes an all-whitespace suffix. -/
theorem trimRight_split : ∀ cs : List Char, ∃ sfx,
    cs = trimRightChars cs ++ sfx ∧ ∀ c ∈ sfx, isGoSpace c = true := by
  intro cs
  induction cs with
  | nil => exact ⟨[], rfl, by simp⟩
  | cons c cs ih =>
    obtain ⟨sfx, hcs, hsp⟩ := ih
    by_cases hc : ((trimRightChars cs).isEmpty && isGoSpace c) = true
    · have hand := (Bool.and_eq_true _ _).mp hc
      have hemp : trimRightChars cs = [] := by simpa using hand.1
      refine ⟨c :: sfx, ?_, ?_⟩
      · rw [show trimRightChars (c :: cs) = [] from by simp [trimRightChars, hc]]
        rw [List.nil_append]
        rw [hcs, hemp, List.nil_append]
      · intro d hd
        rcases List.mem_cons.mp hd with hd | hd
        · rw [hd]
          exact hand.2
        · exact hsp d hd
    · refine ⟨sfx, ?_, hsp⟩
      rw [show trimRightChars (c :: cs) = c :: trimRightChars cs from by
        simp [trimRightChars, hc]]
      rw [List.cons_append, ← hcs]

/-- Helper: Go `TrimSpace` preserves whitelisted well-formedness. -/
theorem wf_trimChars (cs : List Char) (hw : wfStr cs = true) :
    wfStr (trimChars cs) = true := by
  unfold trimChars
  have hmem : ∀ c ∈ cs.takeWhile isGoSpace, isGoSpace c = true :=
    fun c hm => List.mem_takeWhile_imp hm
  have hfront : wfStr (cs.dropWhile isGoSpace) = true := by
    rw [← wf_unText _ (cs.dropWhile isGoSpace)
      (all_gospace_no _ hmem '<' (by decide))]
    rw [List.takeWhile_append_dropWhile]
    exact hw
  obtain ⟨sfx, hsp, hmem2⟩ := trimRight_split (cs.dropWhile isGoSpace)
  apply wf_of_append_text _ sfx (all_gospace_no _ hmem2 '<' (by decide))
    (all_gospace_no _ hmem2 '>' (by decide))
  rw [← hsp]
  exact hfront

/-- Helper: `goTrimSpace` preserves whitelisted well-formedness. -/
theorem wf_goTrimSpace (s : String) (hw : wfStr s.data = true) :
    wfStr (goTrimSpace s).data = true :=
  wf_trimChars s.data hw

/-- Helper: wrapping well-formed content in a whitelisted block tag is
well-formed. -/
theorem wf_wrapBlock (tag t : String) (hb : goodBody tag.data = true)
    (hgt : tag.data.contains '>' = false)
    (hb2 : goodBody ('/' :: tag.data) = true)
    (hgt2 : ('/' :: tag.data).contains '>' = false)
    (hw : wfStr t.data = true) :
    wfStr (("<" ++ tag ++ ">" ++ t ++ "</" ++ tag ++ ">").data) = true := by
  have hdata : ("<" ++ tag ++ ">" ++ t ++ "</" ++ tag ++ ">").data =
      '<' :: tag.data ++ '>' :: (t.data ++ ('<' :: ('/' :: tag.data) ++ '>' :: [])) := by
    simp [data_append, List.append_assoc]
  rw [hdata]
  apply wf_tag _ _ hgt hb
  exact wf_append _ _ hw (wf_tag ('/' :: tag.data) [] hgt2 hb2 (by decide))

/-- Helper: the part-folding loop of `emitParts` keeps every accumulated
block and the pending buffer well-formed. -/
theorem wf_emitParts_fold (tag : String) (hb : goodBody tag.data = true)
    (hgt : tag.data.contains '>' = false)
    (hb2 : goodBody ('/' :: tag.data) = true)
    (hgt2 : ('/' :: tag.data).contains '>' = false) :
    ∀ (parts blocks : List String) (buf : String),
    (∀ p ∈ parts, wfStr p.data = true) →
    (∀ b ∈ blocks, wfStr b.data = true) → wfStr buf.data = true →
    (∀ s ∈ (parts.foldl (fun (st : List String × String) (p : String) =>
        if isSceneBreakHTML p then
          ((if goTrimSpace st.2 = "" then st.1
            else st.1 ++ ["<" ++ tag ++ ">" ++ goTrimSpace st.2 ++ "</" ++ tag ++ ">"]) ++
            [p], "")
        else (st.1, st.2 ++ p)) (blocks, buf)).1, wfStr s.data = true) ∧
      wfStr ((parts.foldl (fun (st : List String × String) (p : String) =>
        if isSceneBreakHTML p then
          ((if goTrimSpace st.2 = "" then st.1
            else st.1 ++ ["<" ++ tag ++ ">" ++ goTrimSpace st.2 ++ "</" ++ tag ++ ">"]) ++
            [p], "")
        else (st.1, st.2 ++ p)) (blocks, buf)).2).data = true := by
  intro parts
  induction parts with
  | nil =>
    intro blocks buf hp hbl hbuf
    exact ⟨hbl, hbuf⟩
  | cons p parts ih =>
    intro blocks buf hp hbl hbuf
    rw [List.foldl_cons]
    by_cases hp1 : isSceneBreakHTML p = true
    · rw [if_pos hp1]
      apply ih _ _ (fun q hq => hp q (List.mem_cons_of_mem p hq))
      · intro b hbm
        rcases List.mem_append.mp hbm with hbm | hbm
        · split_ifs at hbm with ht
          · exact hbl b hbm
          · rcases List.mem_append.mp hbm with hbm | hbm
            · exact hbl b hbm
            · rw [List.mem_singleton.mp hbm]
              exact wf_wrapBlock tag _ hb hgt hb2 hgt2 (wf_goTrimSpace buf hbuf)
        · rw [List.mem_singleton.mp hbm]
          exact hp p (List.mem_cons_self p parts)
      · decide
    · rw [if_neg hp1]
      apply ih _ _ (fun q hq => hp q (List.mem_cons_of_mem p hq)) hbl
      rw [data_append]
      exact wf_append _ _ hbuf (hp p (List.mem_cons_self p parts))

/-- Helper: `emitParts` emits only well-formed blocks from well-formed parts
and blocks. -/
theorem wf_emitParts (tag : String) (hb : goodBody tag.data = true)
    (hgt : tag.data.contains '>' = false)
    (hb2 : goodBody ('/' :: tag.data) = true)
    (hgt2 : ('/' :: tag.data).contains '>' = false)
    (parts blocks : List String)
    (hp : ∀ p ∈ parts, wfStr p.data = true)
    (hbl : ∀ b ∈ blocks, wfStr b.data = true) :
    ∀ s ∈ emitParts tag parts blocks, wfStr s.data = true := by
  have key := wf_emitParts_fold tag hb hgt hb2 hgt2 parts blocks ("") hp hbl
    (by decide)
  intro s hs
  have hs2 : s ∈ (if goTrimSpace (parts.foldl
        (fun (st : List String × String) (p : String) =>
        if isSceneBreakHTML p then
          ((if goTrimSpace st.2 = "" then st.1
            else st.1 ++ ["<" ++ tag ++ ">" ++ goTrimSpace st.2 ++ "</" ++ tag ++ ">"]) ++
            [p], "")
        else (st.1, st.2 ++ p)) (blocks, "")).2 = ""
      then (parts.foldl (fun (st : List String × String) (p : String) =>
        if isSceneBreakHTML p then
          ((if goTrimSpace st.2 = "" then st.1
            else st.1 ++ ["<" ++ tag ++ ">" ++ goTrimSpace st.2 ++ "</" ++ tag ++ ">"]) ++
            [p], "")
        else (st.1, st.2 ++ p)) (blocks, "")).1
      else (parts.foldl (fun (st : List String × String) (p : String) =>
        if isSceneBreakHTML p then
          ((if goTrimSpace st.2 = "" then st.1
            else st.1 ++ ["<" ++ tag ++ ">" ++ goTrimSpace st.2 ++ "</" ++ tag ++ ">"]) ++
            [p], "")
        else (st.1, st.2 ++ p)) (blocks, "")).1 ++
        ["<" ++ tag ++ ">" ++ goTrimSpace (parts.foldl
          (fun (st : List String × String) (p : String) =>
          if isSceneBreakHTML p then
            ((if goTrimSpace st.2 = "" then st.1
              else st.1 ++ ["<" ++ tag ++ ">" ++ goTrimSpace st.2 ++ "</" ++ tag ++ ">"]) ++
              [p], "")
          else (st.1, st.2 ++ p)) (blocks, "")).2 ++ "</" ++ tag ++ ">"]) := hs
  split_ifs at hs2 with ht
  · exact key.1 s hs2
  · rcases List.mem_append.mp hs2 with hm | hm
    · exact key.1 s hm
    · rw [List.mem_singleton.mp hm]
      exact wf_wrapBlock tag _ hb hgt hb2 hgt2 (wf_goTrimSpace _ key.2)

/-- Helper: the scene-break marker of any style is well-formed. -/
theorem wf_emitSceneBreak (style : String) :
    wfStr (emitSceneBreak style).data = true := by
  unfold emitSceneBreak
  split_ifs <;> decide

/-- Helper: `pushBlock` preserves well-formedness of the block list. -/
theorem wf_pushBlock (cfg : ParserConfig) (tag : String) (el : HNode)
    (blocks : List String) (hb : goodBody tag.data = true)
    (hgt : tag.data.contains '>' = false)
    (hb2 : goodBody ('/' :: tag.data) = true)
    (hgt2 : ('/' :: tag.data).contains '>' = false)
    (hbl : ∀ b ∈ blocks, wfStr b.data = true) :
    ∀ s ∈ pushBlock cfg tag el blocks, wfStr s.data = true := by
  intro s hs
  simp only [pushBlock] at hs
  split_ifs at hs with h1 h2
  · exact hbl s hs
  · rcases List.mem_append.mp hs with hm | hm
    · exact hbl s hm
    · rw [List.mem_singleton.mp hm]
      exact wf_emitSceneBreak cfg.SceneBreakStyle
  · refine wf_emitParts tag hb hgt hb2 hgt2 _ blocks ?_ hbl s hs
    exact wf_splitOnSceneBreak _
      (wf_replaceBRRuns (inlineHTML el) cfg.ConsecutiveBRThreshold
        cfg.SceneBreakStyle (wf_inline el))

/-- Helper: one step of the block dispatch preserves well-formedness. -/
theorem wf_blockStep (cfg : ParserConfig) (blocks : List String) (n : HNode)
    (hbl : ∀ b ∈ blocks, wfStr b.data = true) :
    ∀ s ∈ blockStep cfg blocks n, wfStr s.data = true := by
  intro s hs
  cases n with
  | text t => exact hbl s hs
  | comment t => exact hbl s hs
  | elem name attrs cs =>
    simp only [blockStep] at hs
    split_ifs at hs with h1 h2 h3 h4
    · exact wf_pushBlock cfg ("p") _ blocks (by decide) (by decide) (by decide)
        (by decide) hbl s hs
    · exact wf_pushBlock cfg ("blockquote") _ blocks (by decide) (by decide)
        (by decide) (by decide) hbl s hs
    · exact hbl s hs
    · rcases List.mem_append.mp hs with hm | hm
      · exact hbl s hm
      · rw [List.mem_singleton.mp hm]
        exact wf_emitSceneBreak cfg.SceneBreakStyle
    · exact hbl s hs

/-- Helper: the block fold starting from well-formed blocks stays
well-formed. -/
theorem wf_blockFold (cfg : ParserConfig) : ∀ (l : List HNode)
    (blocks : List String), (∀ b ∈ blocks, wfStr b.data = true) →
    ∀ s ∈ l.foldl (blockStep cfg) blocks, wfStr s.data = true := by
  intro l
  induction l with
  | nil =>
    intro blocks hbl s hs
    exact hbl s hs
  | cons n l ih =>
    intro blocks hbl s hs
    rw [List.foldl_cons] at hs
    exact ih (blockStep cfg blocks n) (wf_blockStep cfg blocks n hbl) s hs

/-- Helper: the de-duplication fold only keeps elements satisfying an
invariant. -/
theorem dedup_pres (P : String → Prop) : ∀ (blocks out : List String),
    (∀ x ∈ out, P x) → (∀ b ∈ blocks, P b) →
    ∀ x ∈ blocks.foldl (fun out b =>
      if !out.isEmpty && isSceneBreakHTML b && isSceneBreakHTML (out.getLastD "")
      then out else out ++ [b]) out, P x := by
  intro blocks
  induction blocks with
  | nil =>
    intro out hout _ x hx
    exact hout x hx
  | cons b blocks ih =>
    intro out hout hbl x hx
    rw [List.foldl_cons] at hx
    by_cases hc : (!out.isEmpty && isSceneBreakHTML b &&
        isSceneBreakHTML (out.getLastD "")) = true
    · rw [if_pos hc] at hx
      exact ih out hout (fun q hq => hbl q (List.mem_cons_of_mem b hq)) x hx
    · rw [if_neg hc] at hx
      refine ih (out ++ [b]) ?_ (fun q hq => hbl q (List.mem_cons_of_mem b hq)) x hx
      intro q hq
      rcases List.mem_append.mp hq with hm | hm
      · exact hout q hm
      · rw [List.mem_singleton.mp hm]
        exact hbl b (List.mem_cons_self b blocks)

/-- Helper: adjacent-marker de-duplication preserves well-formedness. -/
theorem wf_dedupAdjacent (blocks : List String)
    (hbl : ∀ b ∈ blocks, wfStr b.data = true) :
    ∀ s ∈ dedupAdjacent blocks, wfStr s.data = true := by
  intro s hs
  exact dedup_pres (fun x => wfStr x.data = true) blocks [] (by simp) hbl s hs

/-- Helper: every block produced by `paragraphsWithInline` is a well-formed
whitelisted string. -/
theorem wf_paragraphs (sel : List HNode) (cfg : ParserConfig) :
    ∀ s ∈ paragraphsWithInline sel cfg, wfStr s.data = true := by
  intro s hs
  unfold paragraphsWithInline at hs
  refine wf_dedupAdjacent _ ?_ s hs
  exact wf_blockFold cfg _ [] (by simp)

/-- Helper: joining well-formed blocks with a well-formed separator is
well-formed. -/
theorem wf_goJoin (sep : String) (hsep : wfStr sep.data = true) :
    ∀ bs : List String, (∀ b ∈ bs, wfStr b.data = true) →
      wfStr (goJoin sep bs).data = true
  | [], _ => rfl
  | [b], h => h b (List.mem_cons_self b [])
  | b :: c :: bs, h => by
    show wfStr ((b ++ sep ++ goJoin sep (c :: bs)).data) = true
    rw [data_append, data_append]
    refine wf_append _ _ (wf_append _ _ (h b (List.mem_cons_self b _)) hsep) ?_
    exact wf_goJoin sep hsep (c :: bs)
      (fun q hq => h q (List.mem_cons_of_mem b hq))

/-- C1: every tag name occurring in the HTML of a chapter successfully
returned by `ParseChapter` belongs to the fixed whitelist `p`, `blockquote`,
`b`, `i`, `u`, `a`, `br`, `hr`. -/
theorem C1_whitelist_closure (doc : HNode) (url : String) (cfg : ParserConfig)
    (ch : Chapter) (next : Option String)
    (h : parseChapter doc url cfg = .ok (ch, next)) :
    ∀ t ∈ tagsIn ch.HTML, t ∈ whitelist := by
  unfold parseChapter at h
  simp only [] at h
  split at h
  · exact absurd h (by simp)
  · next sel hfc =>
    split_ifs at h with hlen
    injection h with h2
    injection h2 with hch hnx
    rw [← hch]
    apply tags_whitelist
    apply wf_goJoin ("\n") (by decide)
    exact wf_paragraphs _ cfg

/-- C1 witness: on the rich fixture page, `ParseChapter` succeeds and the
theorem instantiates at the `i` tag of its output HTML. -/
theorem C1_whitelist_closure_witness : ("i" : String) ∈ whitelist :=
  C1_whitelist_closure docRich ("u") cfgRich
    ⟨"Untitled Chapter", "Untitled Chapter", "u", "<p>x <i>y &amp; z</i> tail</p>"⟩
    none rfl ("i") (by decide)

end GoParser
